import Mathlib

/-!
Verification of the containerd `plugin` package (plugin.go): the `Registry` of
`Registration`s with its `Register` validation, and the dependency resolver
`Graph` (depth-first traversal with a handled set, disable filtering and cycle
detection), together with the `GetSingle` lookup of the plugin set.

The Go code is embedded shallowly:
* a Go `*Registration` is a `Registration` value carrying a `uid : Nat` that
  models the pointer identity (two distinct pointers have distinct uids; the
  Go code compares registrations and keys its `handled` map by pointer);
* the `handled` map of `Graph` becomes a `List Nat` of uids;
* Go panics become `Except` errors;
* the unbounded recursion of `children` is driven by a fuel parameter; `Graph`
  supplies `registry.length + 1` fuel, and we prove fuel exhaustion is
  unreachable, which is the termination statement for the Go recursion.
-/

namespace PluginSpec

/-- Embeds Go `Registration` (plugin.go:61).  `uid` models the pointer
identity of the `*Registration`; `type_`, `id` and `requires` embed the
`Type`, `ID` and `Requires` fields (Go `Type` is a string).  The opaque
fields `Config`, `InitFn` and `ConfigMigration` play no role in `Register`
or `Graph` and are omitted. -/
structure Registration where
  uid : Nat
  type_ : String
  id : String
  requires : List String
deriving DecidableEq

/-- Embeds `Registration.URI` (plugin.go:99): `Type + "." + ID`. -/
def uri (r : Registration) : String := r.type_ ++ "." ++ r.id

/-- The errors `Register` can abort with (plugin.go:25-48, raised
at plugin.go:160-178). -/
inductive RegisterErr where
  | noType
  | noPluginID
  | idRegistered (u : String)
  | invalidRequires
deriving DecidableEq

/-- Embeds `checkUnique` (plugin.go:180): first registration with the same
(Type, ID) pair yields `ErrIDRegistered`, wrapped with the new
registration's URI. -/
def checkUnique (registry : List Registration) (r : Registration) : Option RegisterErr :=
  if registry.any (fun x => x.type_ == r.type_ && x.id == r.id) then
    some (.idRegistered (uri r))
  else
    none

/-- Embeds `Registry.Register` (plugin.go:160-178).  Go panics become
`Except.error`. -/
def Register (registry : List Registration) (r : Registration) :
    Except RegisterErr (List Registration) :=
  if r.type_ = "" then .error .noType
  else if r.id = "" then .error .noPluginID
  else
    match checkUnique registry r with
    | some e => .error e
    | none =>
      if r.requires.any (fun req => (req == "*" && r.requires.length != 1) || req == r.type_) then
        .error .invalidRequires
      else
        .ok (registry ++ [r])

/-- A registry value reachable by successful `Register` calls starting from
the empty (nil) registry. -/
inductive BuiltByRegister : List Registration → Prop
  | nil : BuiltByRegister []
  | step {l r l'} : BuiltByRegister l → Register l r = .ok l' → BuiltByRegister l'

/-- Failures of `Graph`: the circular-dependency panic of `children`
(plugin.go:146), carrying the URI of the registration at which the cycle was
detected, and the artificial fuel-exhaustion outcome of the embedding (shown
unreachable). -/
inductive GraphErr where
  | circular (u : String)
  | outOfFuel
deriving DecidableEq

/-- Inner loop of `children` (plugin.go:140-154) over the registry for one
required type `t`: `stack` holds the ancestors of `reg` on the DFS path (the
Go `stack` is `stack ++ [reg]`, and the cycle scan at plugin.go:144 runs over
`stack[:len(stack)-1]`, i.e. over `stack`).  `recur` is the recursive call
`children(append(stack, r), ...)` of plugin.go:149.  Membership and equality
tests on uids model the Go pointer comparisons and the pointer-keyed
`handled` map. -/
def childRegLoop
    (recur : Registration → List Nat → List Registration →
      Except GraphErr (List Nat × List Registration))
    (stack : List Registration) (reg : Registration) (t : String) :
    List Registration → List Nat → List Registration →
      Except GraphErr (List Nat × List Registration)
  | [], handled, ordered => .ok (handled, ordered)
  | r :: rs, handled, ordered =>
    if (t = "*" ∨ r.type_ = t) ∧ r.uid ≠ reg.uid then
      if r.uid ∈ handled then
        childRegLoop recur stack reg t rs handled ordered
      else if ∃ p ∈ stack, p.uid = r.uid then
        .error (.circular (uri r))
      else
        match recur r handled ordered with
        | .error e => .error e
        | .ok (h, o) => childRegLoop recur stack reg t rs (r.uid :: h) (o ++ [r])
    else
      childRegLoop recur stack reg t rs handled ordered

/-- Outer loop of `children` (plugin.go:139) over `reg.Requires`. -/
def childReqLoop
    (recur : Registration → List Nat → List Registration →
      Except GraphErr (List Nat × List Registration))
    (stack : List Registration) (reg : Registration) (registry : List Registration) :
    List String → List Nat → List Registration →
      Except GraphErr (List Nat × List Registration)
  | [], handled, ordered => .ok (handled, ordered)
  | t :: ts, handled, ordered =>
    match childRegLoop recur stack reg t registry handled ordered with
    | .error e => .error e
    | .ok (h, o) => childReqLoop recur stack reg registry ts h o

/-- Embeds `children` (plugin.go:137-156).  The Go stack argument is
`stack ++ [reg]`; the extra fuel argument bounds the recursion depth and is
proved never to run out when `Graph` supplies it. -/
def childrenAux :
    Nat → List Registration → Registration → List Registration →
      List Nat → List Registration → Except GraphErr (List Nat × List Registration)
  | 0, _, _, _, _, _ => .error .outOfFuel
  | fuel + 1, stack, reg, registry, handled, ordered =>
    childReqLoop (fun r h o => childrenAux fuel (stack ++ [reg]) r registry h o)
      stack reg registry reg.requires handled ordered

/-- The main loop of `Graph` (plugin.go:126-133): walk the registry in order,
skip handled entries, resolve children, then mark and emit. -/
def graphLoop (fuel : Nat) (registry : List Registration) :
    List Registration → List Nat → List Registration →
      Except GraphErr (List Nat × List Registration)
  | [], handled, ordered => .ok (handled, ordered)
  | r :: rs, handled, ordered =>
    if r.uid ∈ handled then
      graphLoop fuel registry rs handled ordered
    else
      match childrenAux fuel [] r registry handled ordered with
      | .error e => .error e
      | .ok (h, o) => graphLoop fuel registry rs (r.uid :: h) (o ++ [r])

/-- The initial `handled` set of `Graph` (plugin.go:115-122): the uids of the
registrations matched by the disable filter; a nil filter marks nothing. -/
def disabledUids (registry : List Registration) :
    Option (Registration → Bool) → List Nat
  | none => []
  | some f => (registry.filter f).map (·.uid)

/-- Embeds `Registry.Graph` (plugin.go:114-135).  `filter` is the
`DisableFilter`; `none` models a nil Go function value (plugin.go:116 guards
the filter loop with `filter != nil`). -/
def Graph (registry : List Registration) (filter : Option (Registration → Bool)) :
    Except GraphErr (List Registration) :=
  match graphLoop (registry.length + 1) registry registry (disabledUids registry filter) [] with
  | .error e => .error e
  | .ok (_, ordered) => .ok ordered

/-! ## Specification-level definitions

Derived notions used to state the properties of `Graph`: the uid projection,
the dependency edge relation read off the candidate test of `children`
(plugin.go:141), reachability, the topological-order predicate, the run
invariant of the traversal, and positions in the output. -/

/-- The uids (pointer identities) of a list of registrations. -/
def uids (l : List Registration) : List Nat := l.map (·.uid)

/-- The dependency edge relation of the resolver: `edge registry a b` holds
when the candidate scan of `children` (plugin.go:141) links `a` to `b`, i.e.
`b` is in the registry, is a different pointer than `a`, and matches some
required type of `a` (or `a` requires the wildcard). -/
def edge (registry : List Registration) (a b : Registration) : Prop :=
  b ∈ registry ∧ b.uid ≠ a.uid ∧ ∃ t ∈ a.requires, t = "*" ∨ b.type_ = t

/-- Transitive reachability along a step relation (requires directly or
transitively). -/
inductive ReachesVia (step : Registration → Registration → Prop) :
    Registration → Registration → Prop
  | direct {x y} : step x y → ReachesVia step x y
  | head {x y z} : step x y → ReachesVia step y z → ReachesVia step x z

/-- Dependency edge whose target is not disabled: only these edges influence
the traversal, since disabled registrations are pre-marked handled
(plugin.go:116-122) and never recursed into. -/
def edgeND (registry : List Registration) (f : Registration → Bool)
    (a b : Registration) : Prop :=
  edge registry a b ∧ f b = false

/-- `S` is a registration that must precede `R` in the resolved order:
it is in the registry, not disabled (uid not in `D`), a different pointer
than `R`, and matches one of `R`'s required types (or `R` has a wildcard
requirement). -/
def qualifies (registry : List Registration) (D : List Nat)
    (R S : Registration) : Prop :=
  S ∈ registry ∧ S.uid ∉ D ∧ S.uid ≠ R.uid ∧ ∃ t ∈ R.requires, t = "*" ∨ S.type_ = t

/-- Topological correctness of an output list `o`: wherever a registration
`R` sits in `o`, every registration qualifying as its dependency already
occurs (by uid) strictly before it. -/
def TopOK (registry : List Registration) (D : List Nat)
    (o : List Registration) : Prop :=
  ∀ l₁ R l₂, o = l₁ ++ R :: l₂ → ∀ S, qualifies registry D R S → S.uid ∈ uids l₁

/-- Run invariant of the traversal relating the `handled` uid set and the
`ordered` output, for initial disabled set `D`: `handled` is exactly `D`
plus the emitted uids, the output draws from the registry without uid
repetition, avoids disabled entries, and is topologically correct so far. -/
structure Inv (registry : List Registration) (D : List Nat)
    (handled : List Nat) (ordered : List Registration) : Prop where
  heq : handled = (uids ordered).reverse ++ D
  subset : ∀ r ∈ ordered, r ∈ registry
  nodup : (uids ordered).Nodup
  ndis : ∀ r ∈ ordered, r.uid ∉ D
  topo : TopOK registry D ordered

/-- Contract of the recursive call handed to the loops of `children`: on a
successful run from a well-formed state it preserves the invariant, only
appends registrations reachable from its argument whose uids avoid the DFS
path `A`, and ends with every dependency of its argument handled. -/
def RecurOK (registry : List Registration) (D : List Nat) (A : List Nat)
    (recur : Registration → List Nat → List Registration →
      Except GraphErr (List Nat × List Registration)) : Prop :=
  ∀ r h o h' o', r ∈ registry → r.uid ∉ h → Inv registry D h o →
    recur r h o = .ok (h', o') →
    Inv registry D h' o' ∧
    (∃ d, o' = o ++ d ∧
      ∀ x ∈ d, ReachesVia (edge registry) r x ∧ x.uid ∉ A ∧ x.uid ≠ r.uid) ∧
    (∀ S, qualifies registry D r S → S.uid ∈ h')

/-- What a circular-dependency error of `Graph` identifies: the URI of a
non-disabled registration of the registry lying on a dependency cycle. -/
def CircWitness (registry : List Registration) (f : Registration → Bool)
    (u : String) : Prop :=
  ∃ r, r ∈ registry ∧ u = uri r ∧ f r = false ∧
    ReachesVia (edgeND registry f) r r

/-- A registration's non-disabled dependency cycle exists in the registry. -/
def HasCycle (registry : List Registration) (f : Registration → Bool) : Prop :=
  ∃ c, c ∈ registry ∧ f c = false ∧ ReachesVia (edgeND registry f) c c

/-- Position of the first registration with uid `u` in a list (length of the
list when absent). -/
def posOf : List Registration → Nat → Nat
  | [], _ => 0
  | r :: l, u => if r.uid = u then 0 else posOf l u + 1

/-! ## Plugin set lookup

The `Plugin`/`PluginSet`/`InitContext` lookup code (`GetSingle`) is not among
the provided source files — only its tests (`TestGetPlugins`,
plugin_test.go:386-432) are — so it is modelled from the specification. -/

/-- Modelled from the spec: the recorded outcome of running a registration's
initializer — an instance, the distinguished skip outcome (`ErrSkipPlugin`),
or an opaque error propagated verbatim (errors are modelled by their
message). -/
inductive PluginResult where
  | ok (inst : String)
  | skip
  | failed (msg : String)
deriving DecidableEq

/-- Modelled from the spec: a stored `Plugin` — the originating registration
identity (type and id) tagged with its initializer's recorded result.  The
instance value is opaque and modelled as a string, as in the repository's
tests. -/
structure Plugin where
  type_ : String
  id : String
  result : PluginResult
deriving DecidableEq

/-- Results of the `PluginSet` lookup operations: a found instance,
`ErrPluginNotFound`, `ErrPluginMultipleInstances`, or a stored initializer
error propagated verbatim. -/
inductive LookupRes where
  | found (inst : String)
  | notFound
  | multipleInstances
  | failed (msg : String)
deriving DecidableEq

/-- The stored plugins of type `t` whose result is a produced instance
(not a skip outcome and not an error), in insertion order. -/
def qualList (ps : List Plugin) (t : String) : List String :=
  (ps.filter (fun p => p.type_ == t)).filterMap
    (fun p => match p.result with | .ok i => some i | _ => none)

/-- Modelled from the spec: `InitContext.GetSingle` (plugins.go is missing
from the sources; spec §4.3).  It requires exactly one stored plugin of the
given type whose result is neither a skip outcome nor another error and
returns that instance; with none, it fails with not-found — except that when
the type has exactly one entry and that entry recorded a non-skip error, the
stored error is propagated verbatim (spec §8: GetSingle(type5) → otherErr);
with more than one, it fails with multiple-instances. -/
def GetSingle (ps : List Plugin) (t : String) : LookupRes :=
  match qualList ps t with
  | [i] => .found i
  | _ :: _ :: _ => .multipleInstances
  | [] =>
    match ps.filter (fun p => p.type_ == t) with
    | [p] =>
      match p.result with
      | .failed m => .failed m
      | _ => .notFound
    | _ => .notFound

/-- Whether a recorded result is a produced instance. -/
def isOkResult : PluginResult → Bool
  | .ok _ => true
  | _ => false

/-- The plugin set of the specification's lookup examples (§8) and of
`TestGetPlugins` (plugin_test.go:386-399): type1 has a success and a skip,
type2 only a skip, type3 a success, type4 two successes, type5 a non-skip
failure. -/
def pluginFixtures : List Plugin :=
  [⟨"type1", "id1", .ok "id1"⟩, ⟨"type1", "id2", .skip⟩, ⟨"type2", "id3", .skip⟩,
    ⟨"type3", "id4", .ok "id4"⟩, ⟨"type4", "id5", .ok "id5"⟩,
    ⟨"type4", "id6", .ok "id6"⟩, ⟨"type5", "id7", .failed "otherErr"⟩]

/-! ## Go slice semantics for `Register`'s append

`Register` returns `append(registry, r)` (plugin.go:177).  A Go slice is a
view (array pointer, length, capacity) into a backing array on the heap, and
`append` writes in place whenever spare capacity exists, only allocating a
fresh array on growth.  To examine the immutability contract of the Registry
(spec §3 and the comment at plugin.go:106-109) this aliasing behaviour is
modelled explicitly: a heap of backing arrays addressed by index, and the
growth rule of Go's runtime for small element counts (capacity doubling,
starting at 1). -/

/-- A Go slice header: backing-array index, length and capacity. -/
structure GoSlice where
  arr : Nat
  len : Nat
  cap : Nat
deriving DecidableEq

/-- The heap: backing arrays addressed by their index.  Each array is stored
at its full capacity, padded with `dummyReg`. -/
abbrev GoHeap := List (List Registration)

/-- Padding value for unwritten backing-array cells. -/
def dummyReg : Registration := ⟨0, "", "", []⟩

/-- The registrations visible through a slice: the first `len` cells of its
backing array. -/
def heapRead (heap : GoHeap) (s : GoSlice) : List Registration :=
  (heap.getD s.arr []).take s.len

/-- Go's `append` of one element: write in place when length < capacity
(sharing the backing array with every other slice over it), otherwise
allocate a grown array (doubling, as Go's runtime does at these sizes) and
copy. -/
def goAppend (heap : GoHeap) (s : GoSlice) (x : Registration) : GoHeap × GoSlice :=
  if s.len < s.cap then
    (heap.set s.arr ((heap.getD s.arr []).set s.len x), ⟨s.arr, s.len + 1, s.cap⟩)
  else
    let newcap := max 1 (2 * s.cap)
    let contents := (heap.getD s.arr []).take s.len ++
      x :: List.replicate (newcap - (s.len + 1)) dummyReg
    (heap ++ [contents], ⟨heap.length, s.len + 1, newcap⟩)

/-- `Registry.Register` (plugin.go:160-178) over the explicit slice model:
the same validation as `Register`, with the final `append(registry, r)`
performed by `goAppend` on the heap. -/
def RegisterGo (heap : GoHeap) (s : GoSlice) (r : Registration) :
    Except RegisterErr (GoHeap × GoSlice) :=
  let registry := heapRead heap s
  if r.type_ = "" then .error .noType
  else if r.id = "" then .error .noPluginID
  else
    match checkUnique registry r with
    | some e => .error e
    | none =>
      if r.requires.any (fun req => (req == "*" && r.requires.length != 1) || req == r.type_) then
        .error .invalidRequires
      else
        .ok (goAppend heap s r)

/-- Run `RegisterGo`, keeping the state unchanged on error (used only on
successful chains). -/
def regOk (st : GoHeap × GoSlice) (r : Registration) : GoHeap × GoSlice :=
  match RegisterGo st.1 st.2 r with
  | .ok st' => st'
  | .error _ => st

/-- Three successful `Register` calls from the nil registry: capacities grow
1, 2, 4, so the third slice has one spare cell. -/
def aliasSt3 : GoHeap × GoSlice :=
  regOk (regOk (regOk ([], ⟨0, 0, 0⟩) ⟨1, "t1", "a", []⟩) ⟨2, "t2", "b", []⟩)
    ⟨3, "t3", "c", []⟩

/-- A fourth registration extending the three-element registry: `append`
writes into the spare cell of the shared backing array. -/
def aliasSt4 : GoHeap × GoSlice := regOk aliasSt3 ⟨4, "t4", "d", []⟩

/-- A fifth registration extending the SAME three-element registry value
(the slice of `aliasSt3`) in the heap left by `aliasSt4`: `append` reuses
the same spare cell. -/
def aliasSt5 : GoHeap × GoSlice :=
  regOk (aliasSt4.1, aliasSt3.2) ⟨5, "t5", "e", []⟩

end PluginSpec

deriving instance DecidableEq for Except

namespace PluginSpec

-- Sanity checks replaying the repository's own tests (plugin_test.go),
-- with uids numbering the registration order.

/-- First `TestPluginGraph` case: a wildcard requirement orders itself last. -/
example :
    Graph [⟨0, "grpc", "introspection", ["*"]⟩, ⟨1, "service", "container", []⟩]
        (some (fun _ => false)) =
      .ok [⟨1, "service", "container", []⟩, ⟨0, "grpc", "introspection", ["*"]⟩] := by
  decide

/-- Second `TestPluginGraph` case: a requirement pulls its provider first. -/
example :
    Graph [⟨0, "service", "container", ["metadata"]⟩, ⟨1, "metadata", "bolt", []⟩]
        (some (fun _ => false)) =
      .ok [⟨1, "metadata", "bolt", []⟩, ⟨0, "service", "container", ["metadata"]⟩] := by
  decide

/-- Third `TestPluginGraph` case: requirements resolve in declared order. -/
example :
    Graph [⟨0, "metadata", "bolt", ["content", "snapshotter"]⟩,
        ⟨1, "snapshotter", "overlayfs", []⟩, ⟨2, "content", "content", []⟩]
        (some (fun _ => false)) =
      .ok [⟨2, "content", "content", []⟩, ⟨1, "snapshotter", "overlayfs", []⟩,
        ⟨0, "metadata", "bolt", ["content", "snapshotter"]⟩] := by
  decide

/-- Fourth `TestPluginGraph` case: a disabled registration is dropped. -/
example :
    Graph [⟨0, "content", "content", []⟩, ⟨1, "disable", "disable", []⟩]
        (some (fun r => r.type_ == "disable")) =
      .ok [⟨0, "content", "content", []⟩] := by
  decide

/-- `TestRegisterErrors`, "circular": the cycle is detected at p1. -/
example :
    Graph [⟨0, "internal", "p1", ["runtime"]⟩, ⟨1, "runtime", "p2", ["internal"]⟩,
        ⟨2, "internal", "p3", []⟩] (some (fun _ => false)) =
      .error (.circular "internal.p1") := by
  decide

/-- `TestRegisterErrors`, "duplicate". -/
example :
    Register [⟨0, "monitor", "cgroups", []⟩] ⟨1, "monitor", "cgroups", []⟩ =
      .error (.idRegistered "monitor.cgroups") := by
  decide

/-- `TestRegisterErrors`, "self", "no-type", "no-ID", "bad-requires-all". -/
example :
    Register [] ⟨0, "internal", "p1", ["internal"]⟩ = .error .invalidRequires ∧
    Register [] ⟨0, "", "p1", []⟩ = .error .noType ∧
    Register [] ⟨0, "internal", "", []⟩ = .error .noPluginID ∧
    Register [] ⟨0, "internal", "p1", ["*", "internal"]⟩ = .error .invalidRequires := by
  decide

end PluginSpec

namespace PluginSpec

/-! ## Basic lemmas about uids and the invariant -/

theorem uids_append (l₁ l₂ : List Registration) :
    uids (l₁ ++ l₂) = uids l₁ ++ uids l₂ :=
  List.map_append _ _ _

theorem mem_uids {u : Nat} {l : List Registration} :
    u ∈ uids l ↔ ∃ x ∈ l, x.uid = u := by
  simp [uids]

theorem uid_mem_uids {x : Registration} {l : List Registration} (h : x ∈ l) :
    x.uid ∈ uids l :=
  List.mem_map_of_mem _ h

theorem uid_inj {registry : List Registration} (hu : (uids registry).Nodup)
    {a b : Registration} (ha : a ∈ registry) (hb : b ∈ registry)
    (h : a.uid = b.uid) : a = b :=
  List.inj_on_of_nodup_map hu ha hb h

theorem Inv.mem_handled_iff {registry : List Registration} {D h : List Nat}
    {o : List Registration} (hi : Inv registry D h o) {u : Nat} :
    u ∈ h ↔ u ∈ uids o ∨ u ∈ D := by
  rw [hi.heq]; simp

theorem Inv.handled_mono {registry : List Registration} {D h h' : List Nat}
    {o o' : List Registration} (hi : Inv registry D h o) (hi' : Inv registry D h' o')
    {d : List Registration} (hext : o' = o ++ d) : ∀ u ∈ h, u ∈ h' := by
  intro u hu
  rcases hi.mem_handled_iff.mp hu with h1 | h1
  · refine hi'.mem_handled_iff.mpr (Or.inl ?_)
    subst hext; rw [uids_append]; exact List.mem_append_left _ h1
  · exact hi'.mem_handled_iff.mpr (Or.inr h1)

theorem Inv.qual_mem {registry : List Registration} {D h : List Nat}
    {o : List Registration} (hi : Inv registry D h o) {u : Nat}
    (hS : u ∈ h) (hSD : u ∉ D) : u ∈ uids o := by
  rcases hi.mem_handled_iff.mp hS with h1 | h1
  · exact h1
  · exact absurd h1 hSD

theorem append_singleton_cases {o l₁ l₂ : List Registration} {r R : Registration}
    (h : o ++ [r] = l₁ ++ R :: l₂) :
    (l₁ = o ∧ R = r ∧ l₂ = []) ∨ ∃ l₂', l₂ = l₂' ++ [r] ∧ o = l₁ ++ R :: l₂' := by
  rcases List.eq_nil_or_concat l₂ with rfl | ⟨l₂', b, rfl⟩
  · left
    have h2 := List.append_inj' h (by simp)
    refine ⟨h2.1.symm, ?_, rfl⟩
    have := h2.2
    simp at this
    exact this.symm
  · right
    have h' : o ++ [r] = (l₁ ++ R :: l₂') ++ [b] := by
      rw [h]; simp
    have h2 := List.append_inj' h' (by simp)
    have hrb : r = b := by
      have := h2.2; simp at this; exact this
    refine ⟨l₂', ?_, h2.1⟩
    rw [hrb]
    simp [List.concat_eq_append]

theorem TopOK.snoc {registry : List Registration} {D : List Nat}
    {o : List Registration} (ht : TopOK registry D o) {r : Registration}
    (hq : ∀ S, qualifies registry D r S → S.uid ∈ uids o) :
    TopOK registry D (o ++ [r]) := by
  intro l₁ R l₂ hdec S hS
  rcases append_singleton_cases hdec with ⟨h1, h2, h3⟩ | ⟨l₂', h1, h2⟩
  · subst h1; subst h2; exact hq S hS
  · exact ht _ _ _ h2 S hS

theorem Inv.extend {registry : List Registration} {D h : List Nat}
    {o : List Registration} (hi : Inv registry D h o) {r : Registration}
    (hr : r ∈ registry) (hnh : r.uid ∉ h)
    (hq : ∀ S, qualifies registry D r S → S.uid ∈ h) :
    Inv registry D (r.uid :: h) (o ++ [r]) := by
  have hno : r.uid ∉ uids o := fun hmem => hnh (hi.mem_handled_iff.mpr (Or.inl hmem))
  have hnD : r.uid ∉ D := fun hmem => hnh (hi.mem_handled_iff.mpr (Or.inr hmem))
  refine ⟨?_, ?_, ?_, ?_, ?_⟩
  · rw [hi.heq, uids_append]
    simp [uids]
  · intro x hx
    rcases List.mem_append.mp hx with hx | hx
    · exact hi.subset x hx
    · simp at hx; subst hx; exact hr
  · rw [uids_append]
    have : uids [r] = [r.uid] := by simp [uids]
    rw [this]
    simp [List.nodup_append, hi.nodup, hno]
  · intro x hx
    rcases List.mem_append.mp hx with hx | hx
    · exact hi.ndis x hx
    · simp at hx; subst hx; exact hnD
  · exact hi.topo.snoc (fun S hS => hi.qual_mem (hq S hS) hS.2.1)

/-- The state `Graph` starts its loop from satisfies the invariant. -/
theorem Inv.initial (registry : List Registration) (D : List Nat) :
    Inv registry D D [] := by
  refine ⟨by simp [uids], by simp, by simp [uids], by simp, ?_⟩
  intro l₁ R l₂ hdec
  exact absurd hdec (by simp)

end PluginSpec

namespace PluginSpec

/-! ## The successful-run contract of the traversal -/

/-- One successful candidate step of the inner loop: recursing into a
qualifying candidate `r` and then marking and emitting it preserves the
invariant and only appends descendants of `reg` avoiding the DFS path. -/
theorem recur_step {registry : List Registration} {D : List Nat}
    {stack : List Registration} {reg : Registration} {recur}
    (Hrec : RecurOK registry D (uids (stack ++ [reg])) recur)
    {t : String} (ht : t ∈ reg.requires)
    {r : Registration} (hrreg : r ∈ registry)
    (hmatch : t = "*" ∨ r.type_ = t) (hne : r.uid ≠ reg.uid)
    (hnstk : ¬ ∃ p ∈ stack, p.uid = r.uid)
    {h : List Nat} {o : List Registration} (hrh : r.uid ∉ h) (hi : Inv registry D h o)
    {h₁ : List Nat} {o₁ : List Registration} (hrec : recur r h o = .ok (h₁, o₁)) :
    Inv registry D (r.uid :: h₁) (o₁ ++ [r]) ∧
    ∃ d, o₁ ++ [r] = o ++ d ∧
      ∀ x ∈ d, ReachesVia (edge registry) reg x ∧ x.uid ∉ uids stack ∧ x.uid ≠ reg.uid := by
  obtain ⟨hi₁, ⟨d₁, hext, hdprops⟩, hqual⟩ := Hrec r h o h₁ o₁ hrreg hrh hi hrec
  have hedge : edge registry reg r := ⟨hrreg, hne, ⟨t, ht, hmatch⟩⟩
  have hrh₁ : r.uid ∉ h₁ := by
    intro hmem
    rcases hi₁.mem_handled_iff.mp hmem with h1 | h1
    · rw [hext, uids_append] at h1
      rcases List.mem_append.mp h1 with h2 | h2
      · exact hrh (hi.mem_handled_iff.mpr (Or.inl h2))
      · obtain ⟨x, hx, hxu⟩ := mem_uids.mp h2
        exact (hdprops x hx).2.2 hxu
    · exact hrh (hi.mem_handled_iff.mpr (Or.inr h1))
  refine ⟨hi₁.extend hrreg hrh₁ hqual, d₁ ++ [r], by rw [hext]; simp, ?_⟩
  intro x hx
  rcases List.mem_append.mp hx with hx | hx
  · obtain ⟨hreach, hnA, hnr⟩ := hdprops x hx
    refine ⟨ReachesVia.head hedge hreach, ?_, ?_⟩
    · intro hmem
      exact hnA (by rw [uids_append]; exact List.mem_append_left _ hmem)
    · intro hmem
      apply hnA
      rw [uids_append]
      refine List.mem_append_right _ ?_
      simp [uids, hmem]
  · simp at hx; subst hx
    refine ⟨ReachesVia.direct hedge, ?_, hne⟩
    intro hmem
    obtain ⟨p, hp, hpu⟩ := mem_uids.mp hmem
    exact hnstk ⟨p, hp, hpu⟩

/-- Successful runs of the inner candidate loop of `children`
(plugin.go:140-154) preserve the invariant, append only descendants of `reg`
off the DFS path, and leave every matching candidate handled. -/
theorem childRegLoop_recurOK {registry : List Registration} {D : List Nat}
    {stack : List Registration} {reg : Registration} {recur}
    (Hrec : RecurOK registry D (uids (stack ++ [reg])) recur)
    {t : String} (ht : t ∈ reg.requires) :
    ∀ rs h o h' o', (∀ x ∈ rs, x ∈ registry) → Inv registry D h o →
      childRegLoop recur stack reg t rs h o = .ok (h', o') →
      Inv registry D h' o' ∧
      (∃ d, o' = o ++ d ∧
        ∀ x ∈ d, ReachesVia (edge registry) reg x ∧ x.uid ∉ uids stack ∧ x.uid ≠ reg.uid) ∧
      (∀ x ∈ rs, (t = "*" ∨ x.type_ = t) → x.uid ≠ reg.uid → x.uid ∈ h') := by
  intro rs
  induction rs with
  | nil =>
    intro h o h' o' _ hi hrun
    simp only [childRegLoop] at hrun
    simp at hrun
    obtain ⟨rfl, rfl⟩ := hrun
    exact ⟨hi, ⟨[], by simp, by simp⟩, by simp⟩
  | cons r rs ih =>
    intro h o h' o' hsub hi hrun
    have hrreg : r ∈ registry := hsub r (by simp)
    have hsub' : ∀ x ∈ rs, x ∈ registry := fun x hx => hsub x (by simp [hx])
    by_cases hc : (t = "*" ∨ r.type_ = t) ∧ r.uid ≠ reg.uid
    · rw [childRegLoop, if_pos hc] at hrun
      by_cases hh : r.uid ∈ h
      · rw [if_pos hh] at hrun
        obtain ⟨hi', hd, hpost⟩ := ih h o h' o' hsub' hi hrun
        refine ⟨hi', hd, ?_⟩
        intro x hx hm hne
        rcases List.mem_cons.mp hx with rfl | hx
        · obtain ⟨d, hdo, _⟩ := hd
          exact hi.handled_mono hi' hdo _ hh
        · exact hpost x hx hm hne
      · rw [if_neg hh] at hrun
        by_cases hstk : ∃ p ∈ stack, p.uid = r.uid
        · rw [if_pos hstk] at hrun
          simp at hrun
        · rw [if_neg hstk] at hrun
          cases hrec : recur r h o with
          | error e => rw [hrec] at hrun; simp at hrun
          | ok p =>
            obtain ⟨h₁, o₁⟩ := p
            rw [hrec] at hrun
            obtain ⟨hi₂, d₂, hdo₂, hdprops₂⟩ :=
              recur_step Hrec ht hrreg hc.1 hc.2 hstk hh hi hrec
            obtain ⟨hi', ⟨d₃, hdo₃, hdprops₃⟩, hpost⟩ := ih _ _ h' o' hsub' hi₂ hrun
            refine ⟨hi', ⟨d₂ ++ d₃, ?_, ?_⟩, ?_⟩
            · rw [hdo₃, hdo₂]; simp
            · intro x hx
              rcases List.mem_append.mp hx with hx | hx
              · exact hdprops₂ x hx
              · exact hdprops₃ x hx
            · intro x hx hm hne
              rcases List.mem_cons.mp hx with rfl | hx
              · exact hi₂.handled_mono hi' hdo₃ _ (by simp)
              · exact hpost x hx hm hne
    · rw [childRegLoop, if_neg hc] at hrun
      obtain ⟨hi', hd, hpost⟩ := ih h o h' o' hsub' hi hrun
      refine ⟨hi', hd, ?_⟩
      intro x hx hm hne
      rcases List.mem_cons.mp hx with rfl | hx
      · exact absurd ⟨hm, hne⟩ hc
      · exact hpost x hx hm hne

/-- Successful runs of the requirements loop of `children` (plugin.go:139)
preserve the invariant and end with every candidate matching any processed
required type handled. -/
theorem childReqLoop_recurOK {registry : List Registration} {D : List Nat}
    {stack : List Registration} {reg : Registration} {recur}
    (Hrec : RecurOK registry D (uids (stack ++ [reg])) recur) :
    ∀ ts h o h' o', (∀ t ∈ ts, t ∈ reg.requires) → Inv registry D h o →
      childReqLoop recur stack reg registry ts h o = .ok (h', o') →
      Inv registry D h' o' ∧
      (∃ d, o' = o ++ d ∧
        ∀ x ∈ d, ReachesVia (edge registry) reg x ∧ x.uid ∉ uids stack ∧ x.uid ≠ reg.uid) ∧
      (∀ t ∈ ts, ∀ x ∈ registry, (t = "*" ∨ x.type_ = t) → x.uid ≠ reg.uid → x.uid ∈ h') := by
  intro ts
  induction ts with
  | nil =>
    intro h o h' o' _ hi hrun
    simp only [childReqLoop] at hrun
    simp at hrun
    obtain ⟨rfl, rfl⟩ := hrun
    exact ⟨hi, ⟨[], by simp, by simp⟩, by simp⟩
  | cons t ts ih =>
    intro h o h' o' hts hi hrun
    have ht : t ∈ reg.requires := hts t (by simp)
    simp only [childReqLoop] at hrun
    cases hreg : childRegLoop recur stack reg t registry h o with
    | error e => rw [hreg] at hrun; simp at hrun
    | ok p =>
      obtain ⟨h₁, o₁⟩ := p
      rw [hreg] at hrun
      obtain ⟨hi₁, ⟨d₁, hdo₁, hp₁⟩, hpost₁⟩ :=
        childRegLoop_recurOK Hrec ht registry h o h₁ o₁ (fun x hx => hx) hi hreg
      obtain ⟨hi', ⟨d₂, hdo₂, hp₂⟩, hpost₂⟩ :=
        ih h₁ o₁ h' o' (fun s hs => hts s (by simp [hs])) hi₁ hrun
      refine ⟨hi', ⟨d₁ ++ d₂, by rw [hdo₂, hdo₁]; simp, ?_⟩, ?_⟩
      · intro x hx
        rcases List.mem_append.mp hx with hx | hx
        · exact hp₁ x hx
        · exact hp₂ x hx
      · intro s hs x hx hm hne
        rcases List.mem_cons.mp hs with rfl | hs
        · exact hi₁.handled_mono hi' hdo₂ _ (hpost₁ x hx hm hne)
        · exact hpost₂ s hs x hx hm hne

/-- `children` (plugin.go:137-156) fulfils the recursive-call contract at
every fuel and DFS path. -/
theorem childrenAux_recurOK (registry : List Registration) (D : List Nat) :
    ∀ fuel stack, RecurOK registry D (uids stack)
      (fun r h o => childrenAux fuel stack r registry h o) := by
  intro fuel
  induction fuel with
  | zero =>
    intro stack r h o h' o' _ _ _ hrun
    simp [childrenAux] at hrun
  | succ fuel ih =>
    intro stack r h o h' o' hr hnh hi hrun
    simp only [childrenAux] at hrun
    obtain ⟨hi', ⟨d, hdo, hp⟩, hpost⟩ :=
      childReqLoop_recurOK (ih (stack ++ [r])) r.requires h o h' o'
        (fun t htr => htr) hi hrun
    refine ⟨hi', ⟨d, hdo, hp⟩, ?_⟩
    intro S hS
    obtain ⟨hS1, hS2, hS3, t, htr, hm⟩ := hS
    exact hpost t htr S hS1 hm hS3

end PluginSpec

namespace PluginSpec

/-- Successful runs of the main loop of `Graph` (plugin.go:126-133) preserve
the invariant, only append entries of the worklist or their dependency
descendants, and end with every worklist entry handled. -/
theorem graphLoop_run {registry : List Registration} {D : List Nat} (fuel : Nat) :
    ∀ rs h o h' o', (∀ x ∈ rs, x ∈ registry) → Inv registry D h o →
      graphLoop fuel registry rs h o = .ok (h', o') →
      Inv registry D h' o' ∧
      (∃ d, o' = o ++ d ∧
        ∀ x ∈ d, ∃ r₀ ∈ rs, x = r₀ ∨ ReachesVia (edge registry) r₀ x) ∧
      (∀ x ∈ rs, x.uid ∈ h') := by
  intro rs
  induction rs with
  | nil =>
    intro h o h' o' _ hi hrun
    simp only [graphLoop] at hrun
    simp at hrun
    obtain ⟨rfl, rfl⟩ := hrun
    exact ⟨hi, ⟨[], by simp, by simp⟩, by simp⟩
  | cons r rs ih =>
    intro h o h' o' hsub hi hrun
    have hrreg : r ∈ registry := hsub r (by simp)
    have hsub' : ∀ x ∈ rs, x ∈ registry := fun x hx => hsub x (by simp [hx])
    by_cases hh : r.uid ∈ h
    · rw [graphLoop, if_pos hh] at hrun
      obtain ⟨hi', ⟨d, hdo, hp⟩, hpost⟩ := ih h o h' o' hsub' hi hrun
      refine ⟨hi', ⟨d, hdo, ?_⟩, ?_⟩
      · intro x hx
        obtain ⟨r₀, hr₀, hor⟩ := hp x hx
        exact ⟨r₀, by simp [hr₀], hor⟩
      · intro x hx
        rcases List.mem_cons.mp hx with rfl | hx
        · exact hi.handled_mono hi' hdo _ hh
        · exact hpost x hx
    · rw [graphLoop, if_neg hh] at hrun
      cases hrec : childrenAux fuel [] r registry h o with
      | error e => rw [hrec] at hrun; simp at hrun
      | ok p =>
        obtain ⟨h₁, o₁⟩ := p
        rw [hrec] at hrun
        obtain ⟨hi₁, ⟨d₁, hdo₁, hp₁⟩, hqual⟩ :=
          childrenAux_recurOK registry D fuel [] r h o h₁ o₁ hrreg hh hi hrec
        have hrh₁ : r.uid ∉ h₁ := by
          intro hmem
          rcases hi₁.mem_handled_iff.mp hmem with h1 | h1
          · rw [hdo₁, uids_append] at h1
            rcases List.mem_append.mp h1 with h2 | h2
            · exact hh (hi.mem_handled_iff.mpr (Or.inl h2))
            · obtain ⟨x, hx, hxu⟩ := mem_uids.mp h2
              exact (hp₁ x hx).2.2 hxu
          · exact hh (hi.mem_handled_iff.mpr (Or.inr h1))
        have hi₂ : Inv registry D (r.uid :: h₁) (o₁ ++ [r]) :=
          hi₁.extend hrreg hrh₁ hqual
        obtain ⟨hi', ⟨d₂, hdo₂, hp₂⟩, hpost⟩ := ih _ _ h' o' hsub' hi₂ hrun
        refine ⟨hi', ⟨d₁ ++ [r] ++ d₂, ?_, ?_⟩, ?_⟩
        · rw [hdo₂, hdo₁]; simp
        · intro x hx
          simp only [List.mem_append] at hx
          rcases hx with (hx | hx) | hx
          · exact ⟨r, by simp, Or.inr (hp₁ x hx).1⟩
          · simp at hx; subst hx
            exact ⟨x, by simp, Or.inl rfl⟩
          · obtain ⟨r₀, hr₀, hor⟩ := hp₂ x hx
            exact ⟨r₀, by simp [hr₀], hor⟩
        · intro x hx
          rcases List.mem_cons.mp hx with rfl | hx
          · exact hi₂.handled_mono hi' hdo₂ _ (by simp)
          · exact hpost x hx

/-- Master contract of a successful `Graph` run: the output satisfies the
invariant (drawn from the registry, no uid repetition, no disabled entries,
topologically correct), and every registration of the registry ends either
emitted or disabled. -/
theorem Graph_ok_run {registry : List Registration}
    {filt : Option (Registration → Bool)} {o : List Registration}
    (hok : Graph registry filt = .ok o) :
    Inv registry (disabledUids registry filt)
      ((uids o).reverse ++ disabledUids registry filt) o ∧
    (∀ x ∈ registry, x.uid ∈ uids o ∨ x.uid ∈ disabledUids registry filt) := by
  unfold Graph at hok
  cases hrun : graphLoop (registry.length + 1) registry registry
      (disabledUids registry filt) [] with
  | error e => rw [hrun] at hok; simp at hok
  | ok p =>
    obtain ⟨h', o'⟩ := p
    rw [hrun] at hok
    simp at hok
    subst hok
    obtain ⟨hi, _, hcomp⟩ := graphLoop_run _ registry
      (disabledUids registry filt) [] h' o' (fun x hx => hx)
      (Inv.initial registry (disabledUids registry filt)) hrun
    refine ⟨hi.heq ▸ hi, ?_⟩
    intro x hx
    exact hi.mem_handled_iff.mp (hcomp x hx)

/-- Membership in the initial disabled set is exactly being matched by the
filter, for registries without uid repetition. -/
theorem mem_disabled_iff {registry : List Registration}
    (hu : (uids registry).Nodup) {f : Registration → Bool} {r : Registration}
    (hr : r ∈ registry) :
    r.uid ∈ disabledUids registry (some f) ↔ f r = true := by
  constructor
  · intro hmem
    simp only [disabledUids, List.mem_map, List.mem_filter] at hmem
    obtain ⟨x, ⟨hx, hfx⟩, hxu⟩ := hmem
    have hxr : x = r := uid_inj hu hx hr hxu
    subst hxr
    exact hfx
  · intro hf
    simp only [disabledUids, List.mem_map, List.mem_filter]
    exact ⟨r, ⟨hr, hf⟩, rfl⟩

/-- Every non-disabled registration appears in a successful output. -/
theorem Graph_mem_output {registry : List Registration}
    (hu : (uids registry).Nodup) {f : Registration → Bool} {o : List Registration}
    (hok : Graph registry (some f) = .ok o)
    {r : Registration} (hr : r ∈ registry) (hf : f r = false) : r ∈ o := by
  obtain ⟨hi, hcomp⟩ := Graph_ok_run hok
  rcases hcomp r hr with h1 | h1
  · obtain ⟨y, hy, hyu⟩ := mem_uids.mp h1
    have hyr : y = r := uid_inj hu (hi.subset y hy) hr hyu
    subst hyr
    exact hy
  · rw [mem_disabled_iff hu hr] at h1
    rw [hf] at h1
    cases h1

/-- Every entry of a successful output is a non-disabled registration of the
registry. -/
theorem Graph_output_mem {registry : List Registration}
    (hu : (uids registry).Nodup) {f : Registration → Bool} {o : List Registration}
    (hok : Graph registry (some f) = .ok o)
    {x : Registration} (hx : x ∈ o) : x ∈ registry ∧ f x = false := by
  obtain ⟨hi, _⟩ := Graph_ok_run hok
  have hxr : x ∈ registry := hi.subset x hx
  refine ⟨hxr, ?_⟩
  have hnd := hi.ndis x hx
  rcases hfx : f x with _ | _
  · rfl
  · exact absurd ((mem_disabled_iff hu hxr).mpr hfx) hnd

end PluginSpec

namespace PluginSpec

/-! ## Positions in the output and acyclicity of successful runs -/

theorem mem_uids_cons_iff {r : Registration} {l : List Registration} {u : Nat} :
    u ∈ uids (r :: l) ↔ u = r.uid ∨ u ∈ uids l := by
  simp [uids]

theorem posOf_append_left {l₁ l₂ : List Registration} {u : Nat} (h : u ∈ uids l₁) :
    posOf (l₁ ++ l₂) u = posOf l₁ u := by
  induction l₁ with
  | nil => simp [uids] at h
  | cons r l ih =>
    by_cases hr : r.uid = u
    · simp [posOf, hr]
    · have h' : u ∈ uids l := by
        rcases mem_uids_cons_iff.mp h with h1 | h1
        · exact absurd h1.symm hr
        · exact h1
      simp [posOf, hr, ih h']

theorem posOf_lt_length {l : List Registration} {u : Nat} (h : u ∈ uids l) :
    posOf l u < l.length := by
  induction l with
  | nil => simp [uids] at h
  | cons r l ih =>
    by_cases hr : r.uid = u
    · simp [posOf, hr]
    · have h' : u ∈ uids l := by
        rcases mem_uids_cons_iff.mp h with h1 | h1
        · exact absurd h1.symm hr
        · exact h1
      simp only [posOf, if_neg hr, List.length_cons]
      exact Nat.succ_lt_succ (ih h')

theorem posOf_append_right {l₁ l₂ : List Registration} {u : Nat} (h : u ∉ uids l₁) :
    posOf (l₁ ++ l₂) u = l₁.length + posOf l₂ u := by
  induction l₁ with
  | nil => simp
  | cons r l ih =>
    have hr : r.uid ≠ u := fun hh => h (mem_uids_cons_iff.mpr (Or.inl hh.symm))
    have h' : u ∉ uids l := fun hh => h (mem_uids_cons_iff.mpr (Or.inr hh))
    rw [List.cons_append]
    show (if r.uid = u then 0 else posOf (l ++ l₂) u + 1) = (r :: l).length + posOf l₂ u
    rw [if_neg hr, ih h', List.length_cons]
    omega

theorem ReachesVia.trans {step : Registration → Registration → Prop}
    {x y z : Registration} (h1 : ReachesVia step x y) (h2 : ReachesVia step y z) :
    ReachesVia step x z := by
  revert h2
  induction h1 with
  | direct h => intro h2; exact .head h h2
  | head h hrest ih => intro h2; exact .head h (ih h2)

theorem ReachesVia.tail {step : Registration → Registration → Prop}
    {x y z : Registration} (h1 : ReachesVia step x y) (h2 : step y z) :
    ReachesVia step x z :=
  h1.trans (.direct h2)

/-- A non-disabled edge forces a strictly earlier position of its target in
any successful output. -/
theorem pos_lt_of_edgeND {registry : List Registration} (hu : (uids registry).Nodup)
    {f : Registration → Bool} {o : List Registration}
    (hok : Graph registry (some f) = .ok o)
    {x y : Registration} (hx : x ∈ registry) (hfx : f x = false)
    (hxy : edgeND registry f x y) :
    posOf o y.uid < posOf o x.uid := by
  obtain ⟨hi, _⟩ := Graph_ok_run hok
  have hxo : x ∈ o := Graph_mem_output hu hok hx hfx
  obtain ⟨l₁, l₂, hdec⟩ := List.append_of_mem hxo
  obtain ⟨⟨hyreg, hyne, ht⟩, hfy⟩ := hxy
  have hq : qualifies registry (disabledUids registry (some f)) x y := by
    refine ⟨hyreg, ?_, hyne, ht⟩
    intro hmem
    rw [mem_disabled_iff hu hyreg] at hmem
    rw [hfy] at hmem; cases hmem
  have hyl₁ : y.uid ∈ uids l₁ := hi.topo l₁ x l₂ hdec y hq
  have hxnl₁ : x.uid ∉ uids l₁ := by
    have hnd := hi.nodup
    rw [hdec, uids_append] at hnd
    intro hmem
    rcases List.nodup_append.mp hnd with ⟨_, _, hdisj⟩
    exact hdisj hmem (mem_uids_cons_iff.mpr (Or.inl rfl))
  rw [hdec, posOf_append_left hyl₁, posOf_append_right hxnl₁]
  have hzero : posOf (x :: l₂) x.uid = 0 := by simp [posOf]
  rw [hzero]
  have := posOf_lt_length hyl₁
  omega

/-- Reachability along non-disabled edges forces strictly earlier positions. -/
theorem pos_lt_of_reaches {registry : List Registration} (hu : (uids registry).Nodup)
    {f : Registration → Bool} {o : List Registration}
    (hok : Graph registry (some f) = .ok o)
    {x y : Registration} (hreach : ReachesVia (edgeND registry f) x y)
    (hx : x ∈ registry) (hfx : f x = false) :
    posOf o y.uid < posOf o x.uid := by
  revert hx hfx
  induction hreach with
  | direct h =>
    intro hx hfx
    exact pos_lt_of_edgeND hu hok hx hfx h
  | head hstep hrest ih =>
    intro hx hfx
    have h1 := pos_lt_of_edgeND hu hok hx hfx hstep
    have h2 := ih hstep.1.1 hstep.2
    omega

/-- A successful `Graph` run implies there is no dependency cycle among
non-disabled registrations. -/
theorem Graph_ok_no_cycle {registry : List Registration} (hu : (uids registry).Nodup)
    {f : Registration → Bool} {o : List Registration}
    (hok : Graph registry (some f) = .ok o) :
    ¬ HasCycle registry f := by
  rintro ⟨c, hc, hfc, hreach⟩
  exact absurd (pos_lt_of_reaches hu hok hreach hc hfc) (lt_irrefl _)

end PluginSpec

namespace PluginSpec

/-! ## Claim C1: topological correctness of Graph -/

/-- C1.  Topological correctness of `Graph`: for every registry built by
successful `Register` calls (with distinct pointers, i.e. distinct uids) and
every disable predicate, if `Graph` returns an order, then wherever a
registration `R` sits in that order, every non-disabled registration of the
registry that satisfies one of `R`'s non-wildcard required types (and is
distinct from `R`) appears strictly before `R`; and if `R` requires the
wildcard, every other non-disabled registration of the registry appears
strictly before `R`. -/
theorem graph_topological_correctness
    {registry : List Registration} {f : Registration → Bool} {o : List Registration}
    (_hb : BuiltByRegister registry) (hu : (uids registry).Nodup)
    (hok : Graph registry (some f) = .ok o)
    {l₁ : List Registration} {R : Registration} {l₂ : List Registration}
    (hdec : o = l₁ ++ R :: l₂) :
    (∀ t ∈ R.requires, t ≠ "*" →
      ∀ S ∈ registry, S.type_ = t → S.uid ≠ R.uid → f S = false → S ∈ l₁) ∧
    ("*" ∈ R.requires →
      ∀ S ∈ registry, S.uid ≠ R.uid → f S = false → S ∈ l₁) := by
  obtain ⟨hi, _⟩ := Graph_ok_run hok
  have hmem : ∀ S ∈ registry, f S = false → S.uid ≠ R.uid →
      (∃ t ∈ R.requires, t = "*" ∨ S.type_ = t) → S ∈ l₁ := by
    intro S hS hfS hne ht
    have hq : qualifies registry (disabledUids registry (some f)) R S := by
      refine ⟨hS, ?_, hne, ht⟩
      intro hd
      rw [mem_disabled_iff hu hS, hfS] at hd
      cases hd
    have huid : S.uid ∈ uids l₁ := hi.topo l₁ R l₂ hdec S hq
    obtain ⟨y, hy, hyu⟩ := mem_uids.mp huid
    have hyo : y ∈ o := by rw [hdec]; exact List.mem_append_left _ hy
    have : y = S := uid_inj hu (hi.subset y hyo) hS hyu
    subst this
    exact hy
  constructor
  · intro t ht _ S hS hst hne hfS
    exact hmem S hS hfS hne ⟨t, ht, Or.inr hst⟩
  · intro hw S hS hne hfS
    exact hmem S hS hfS hne ⟨"*", hw, Or.inl rfl⟩

/-- Witness for C1 at a concrete two-element registry built by `Register`:
the provider of the required type lands in the prefix. -/
theorem graph_topological_correctness_witness :
    (⟨1, "m", "bolt", []⟩ : Registration) ∈ [(⟨1, "m", "bolt", []⟩ : Registration)] := by
  have h1 : Register [] (⟨0, "s", "c", ["m"]⟩ : Registration) =
      .ok [⟨0, "s", "c", ["m"]⟩] := by decide
  have hb1 : BuiltByRegister [(⟨0, "s", "c", ["m"]⟩ : Registration)] := .step .nil h1
  have h2 : Register [(⟨0, "s", "c", ["m"]⟩ : Registration)] ⟨1, "m", "bolt", []⟩ =
      .ok [⟨0, "s", "c", ["m"]⟩, ⟨1, "m", "bolt", []⟩] := by decide
  have hb2 : BuiltByRegister
      [(⟨0, "s", "c", ["m"]⟩ : Registration), ⟨1, "m", "bolt", []⟩] := .step hb1 h2
  have hok : Graph [(⟨0, "s", "c", ["m"]⟩ : Registration), ⟨1, "m", "bolt", []⟩]
      (some (fun _ => false)) =
      .ok [⟨1, "m", "bolt", []⟩, ⟨0, "s", "c", ["m"]⟩] := by decide
  have hdec : ([(⟨1, "m", "bolt", []⟩ : Registration), ⟨0, "s", "c", ["m"]⟩]) =
      [(⟨1, "m", "bolt", []⟩ : Registration)] ++ ⟨0, "s", "c", ["m"]⟩ :: [] := rfl
  exact (graph_topological_correctness hb2 (by decide) hok hdec).1 "m" (by decide)
    (by decide) ⟨1, "m", "bolt", []⟩ (by decide) rfl (by decide) rfl

/-! ## Claim C5: no duplication -/

/-- C5.  For every registry (of distinct pointers) and disable predicate on
which `Graph` succeeds, the output contains each non-disabled registration
exactly once — regardless of how often it is reached as a dependency — and
contains no disabled registration. -/
theorem graph_no_duplication
    {registry : List Registration} (hu : (uids registry).Nodup)
    {f : Registration → Bool} {o : List Registration}
    (hok : Graph registry (some f) = .ok o) :
    (∀ r ∈ registry, f r = false → o.count r = 1) ∧
    (∀ r ∈ registry, f r = true → r ∉ o) := by
  obtain ⟨hi, _⟩ := Graph_ok_run hok
  constructor
  · intro r hr hfr
    have hmem : r ∈ o := Graph_mem_output hu hok hr hfr
    have hnd : o.Nodup := List.Nodup.of_map _ hi.nodup
    exact List.count_eq_one_of_mem hnd hmem
  · intro r hr hfr hmem
    have hcontra := (Graph_output_mem hu hok hmem).2
    rw [hfr] at hcontra
    cases hcontra

/-- Witness for C5: a two-element registry where the second registration is
disabled. -/
theorem graph_no_duplication_witness :
    ([(⟨0, "x", "i", []⟩ : Registration)].count ⟨0, "x", "i", []⟩ = 1) ∧
    ((⟨1, "y", "j", []⟩ : Registration) ∉ [(⟨0, "x", "i", []⟩ : Registration)]) := by
  have hok : Graph [(⟨0, "x", "i", []⟩ : Registration), ⟨1, "y", "j", []⟩]
      (some (fun r => r.type_ == "y")) = .ok [⟨0, "x", "i", []⟩] := by decide
  obtain ⟨h1, h2⟩ := graph_no_duplication (by decide) hok
  exact ⟨h1 _ (by decide) (by decide), h2 _ (by decide) (by decide)⟩

end PluginSpec

namespace PluginSpec

/-! ## Termination: the fuel supplied by Graph never runs out -/

theorem subset_uids {l registry : List Registration} (h : ∀ x ∈ l, x ∈ registry) :
    ∀ u ∈ uids l, u ∈ uids registry := by
  intro u hu
  obtain ⟨x, hx, hxu⟩ := mem_uids.mp hu
  exact hxu ▸ uid_mem_uids (h x hx)

theorem childRegLoop_nof {registry : List Registration}
    {stack : List Registration} {reg : Registration} {recur} {t : String}
    (Hrec : ∀ r h o, r ∈ registry → ¬(∃ p ∈ stack, p.uid = r.uid) → r.uid ≠ reg.uid →
      recur r h o ≠ .error .outOfFuel) :
    ∀ rs h o, (∀ x ∈ rs, x ∈ registry) →
      childRegLoop recur stack reg t rs h o ≠ .error .outOfFuel := by
  intro rs
  induction rs with
  | nil => intro h o _ hrun; simp [childRegLoop] at hrun
  | cons r rs ih =>
    intro h o hsub hrun
    have hrreg : r ∈ registry := hsub r (by simp)
    have hsub' := fun x hx => hsub x (List.mem_cons_of_mem _ hx)
    by_cases hc : (t = "*" ∨ r.type_ = t) ∧ r.uid ≠ reg.uid
    · rw [childRegLoop, if_pos hc] at hrun
      by_cases hh : r.uid ∈ h
      · rw [if_pos hh] at hrun; exact ih h o hsub' hrun
      · rw [if_neg hh] at hrun
        by_cases hstk : ∃ p ∈ stack, p.uid = r.uid
        · rw [if_pos hstk] at hrun; simp at hrun
        · rw [if_neg hstk] at hrun
          cases hrec : recur r h o with
          | error e =>
            rw [hrec] at hrun
            simp at hrun
            subst hrun
            exact Hrec r h o hrreg hstk hc.2 hrec
          | ok p =>
            obtain ⟨h₁, o₁⟩ := p
            rw [hrec] at hrun
            exact ih _ _ hsub' hrun
    · rw [childRegLoop, if_neg hc] at hrun; exact ih h o hsub' hrun

theorem childReqLoop_nof {registry : List Registration}
    {stack : List Registration} {reg : Registration} {recur}
    (Hrec : ∀ r h o, r ∈ registry → ¬(∃ p ∈ stack, p.uid = r.uid) → r.uid ≠ reg.uid →
      recur r h o ≠ .error .outOfFuel) :
    ∀ ts h o, childReqLoop recur stack reg registry ts h o ≠ .error .outOfFuel := by
  intro ts
  induction ts with
  | nil => intro h o hrun; simp [childReqLoop] at hrun
  | cons t ts ih =>
    intro h o hrun
    simp only [childReqLoop] at hrun
    cases hreg : childRegLoop recur stack reg t registry h o with
    | error e =>
      rw [hreg] at hrun
      simp at hrun
      subst hrun
      exact childRegLoop_nof Hrec registry h o (fun x hx => hx) hreg
    | ok p =>
      obtain ⟨h₁, o₁⟩ := p
      rw [hreg] at hrun
      exact ih h₁ o₁ hrun

/-- `children` cannot exhaust its fuel when the fuel dominates the number of
registrations not yet on the (duplicate-free) DFS path: the Go recursion
terminates. -/
theorem childrenAux_nof {registry : List Registration} (_hu : (uids registry).Nodup) :
    ∀ fuel stack reg h o, (∀ p ∈ stack ++ [reg], p ∈ registry) →
      (uids (stack ++ [reg])).Nodup →
      registry.length - stack.length ≤ fuel →
      childrenAux fuel stack reg registry h o ≠ .error .outOfFuel := by
  intro fuel
  induction fuel with
  | zero =>
    intro stack reg h o hmem hnd hbound _
    have hsub : (uids (stack ++ [reg])).Subperm (uids registry) :=
      List.subperm_of_subset hnd (subset_uids hmem)
    have hlen := hsub.length_le
    simp [uids] at hlen
    omega
  | succ fuel ih =>
    intro stack reg h o hmem hnd hbound hrun
    simp only [childrenAux] at hrun
    refine childReqLoop_nof ?_ reg.requires h o hrun
    intro r h₁ o₁ hrreg hstk hne hrec
    have hru : r.uid ∉ uids (stack ++ [reg]) := by
      intro hmem'
      obtain ⟨p, hp, hpu⟩ := mem_uids.mp hmem'
      rcases List.mem_append.mp hp with hp | hp
      · exact hstk ⟨p, hp, hpu⟩
      · simp at hp; subst hp; exact hne hpu.symm
    refine ih (stack ++ [reg]) r h₁ o₁ ?_ ?_ ?_ hrec
    · intro p hp
      rcases List.mem_append.mp hp with hp | hp
      · exact hmem p hp
      · simp at hp; subst hp; exact hrreg
    · rw [uids_append]
      have huids : uids [r] = [r.uid] := by simp [uids]
      rw [huids, List.nodup_append]
      refine ⟨hnd, List.nodup_singleton _, ?_⟩
      intro a ha hb
      simp at hb
      subst hb
      exact hru ha
    · simp only [List.length_append, List.length_cons, List.length_nil]
      omega

theorem graphLoop_nof {registry : List Registration} (hu : (uids registry).Nodup) :
    ∀ rs h o, (∀ x ∈ rs, x ∈ registry) →
      graphLoop (registry.length + 1) registry rs h o ≠ .error .outOfFuel := by
  intro rs
  induction rs with
  | nil => intro h o _ hrun; simp [graphLoop] at hrun
  | cons r rs ih =>
    intro h o hsub hrun
    have hrreg : r ∈ registry := hsub r (by simp)
    have hsub' := fun x hx => hsub x (List.mem_cons_of_mem _ hx)
    by_cases hh : r.uid ∈ h
    · rw [graphLoop, if_pos hh] at hrun; exact ih h o hsub' hrun
    · rw [graphLoop, if_neg hh] at hrun
      cases hrec : childrenAux (registry.length + 1) [] r registry h o with
      | error e =>
        rw [hrec] at hrun
        simp at hrun
        subst hrun
        refine childrenAux_nof hu (registry.length + 1) [] r h o ?_ ?_ ?_ hrec
        · intro p hp; simp at hp; subst hp; exact hrreg
        · simp [uids]
        · omega
      | ok p =>
        obtain ⟨h₁, o₁⟩ := p
        rw [hrec] at hrun
        exact ih _ _ hsub' hrun

/-- `Graph` never exhausts the fuel it supplies: the embedding of the Go
recursion is total. -/
theorem Graph_nof {registry : List Registration} (hu : (uids registry).Nodup)
    (filt : Option (Registration → Bool)) :
    Graph registry filt ≠ .error .outOfFuel := by
  intro hbad
  unfold Graph at hbad
  cases hrun : graphLoop (registry.length + 1) registry registry
      (disabledUids registry filt) [] with
  | error e =>
    rw [hrun] at hbad
    simp at hbad
    subst hbad
    exact graphLoop_nof hu registry _ _ (fun x hx => hx) hrun
  | ok p =>
    obtain ⟨h', o'⟩ := p
    rw [hrun] at hbad
    simp at hbad

/-! ## Circular errors identify genuine dependency cycles -/

theorem not_handled_after_children {registry : List Registration} {D h h₁ : List Nat}
    {o o₁ d₁ : List Registration} {r : Registration}
    (hi : Inv registry D h o) (hi₁ : Inv registry D h₁ o₁) (hh : r.uid ∉ h)
    (hdo₁ : o₁ = o ++ d₁) (hp₁ : ∀ x ∈ d₁, x.uid ≠ r.uid) : r.uid ∉ h₁ := by
  intro hmem
  rcases hi₁.mem_handled_iff.mp hmem with h1 | h1
  · rw [hdo₁, uids_append] at h1
    rcases List.mem_append.mp h1 with h2 | h2
    · exact hh (hi.mem_handled_iff.mpr (Or.inl h2))
    · obtain ⟨x, hx, hxu⟩ := mem_uids.mp h2
      exact hp₁ x hx hxu
  · exact hh (hi.mem_handled_iff.mpr (Or.inr h1))

theorem childRegLoop_circ {registry : List Registration} {D : List Nat}
    {f : Registration → Bool} (hu : (uids registry).Nodup)
    (hDf : ∀ r ∈ registry, r.uid ∉ D → f r = false)
    {stack : List Registration} {reg : Registration} {recur}
    (HrecOK : RecurOK registry D (uids (stack ++ [reg])) recur)
    {t : String} (ht : t ∈ reg.requires) (_hreg : reg ∈ registry)
    (hstack : ∀ p ∈ stack, p ∈ registry ∧ ReachesVia (edgeND registry f) p reg)
    (Hcirc : ∀ r h o u, r ∈ registry → (t = "*" ∨ r.type_ = t) → r.uid ≠ reg.uid →
      ¬(∃ p ∈ stack, p.uid = r.uid) → r.uid ∉ h → Inv registry D h o →
      recur r h o = .error (.circular u) → CircWitness registry f u) :
    ∀ rs h o u, (∀ x ∈ rs, x ∈ registry) → Inv registry D h o →
      childRegLoop recur stack reg t rs h o = .error (.circular u) →
      CircWitness registry f u := by
  intro rs
  induction rs with
  | nil => intro h o u _ _ hrun; simp [childRegLoop] at hrun
  | cons r rs ih =>
    intro h o u hsub hi hrun
    have hrreg : r ∈ registry := hsub r (by simp)
    have hsub' := fun x hx => hsub x (List.mem_cons_of_mem _ hx)
    by_cases hc : (t = "*" ∨ r.type_ = t) ∧ r.uid ≠ reg.uid
    · rw [childRegLoop, if_pos hc] at hrun
      by_cases hh : r.uid ∈ h
      · rw [if_pos hh] at hrun; exact ih h o u hsub' hi hrun
      · rw [if_neg hh] at hrun
        have hfr : f r = false :=
          hDf r hrreg (fun hd => hh (hi.mem_handled_iff.mpr (Or.inr hd)))
        have hedge : edgeND registry f reg r := ⟨⟨hrreg, hc.2, ⟨t, ht, hc.1⟩⟩, hfr⟩
        by_cases hstk : ∃ p ∈ stack, p.uid = r.uid
        · rw [if_pos hstk] at hrun
          simp at hrun
          subst hrun
          obtain ⟨p, hp, hpu⟩ := hstk
          have hpr : p = r := uid_inj hu (hstack p hp).1 hrreg hpu
          refine ⟨r, hrreg, rfl, hfr, ?_⟩
          have hpreach := (hstack p hp).2
          rw [hpr] at hpreach
          exact hpreach.tail hedge
        · rw [if_neg hstk] at hrun
          cases hrec : recur r h o with
          | error e =>
            rw [hrec] at hrun
            simp at hrun
            subst hrun
            exact Hcirc r h o u hrreg hc.1 hc.2 hstk hh hi hrec
          | ok p =>
            obtain ⟨h₁, o₁⟩ := p
            rw [hrec] at hrun
            obtain ⟨hi₂, _⟩ := recur_step HrecOK ht hrreg hc.1 hc.2 hstk hh hi hrec
            exact ih _ _ u hsub' hi₂ hrun
    · rw [childRegLoop, if_neg hc] at hrun
      exact ih h o u hsub' hi hrun

theorem childReqLoop_circ {registry : List Registration} {D : List Nat}
    {f : Registration → Bool} (hu : (uids registry).Nodup)
    (hDf : ∀ r ∈ registry, r.uid ∉ D → f r = false)
    {stack : List Registration} {reg : Registration} {recur}
    (HrecOK : RecurOK registry D (uids (stack ++ [reg])) recur)
    (hreg : reg ∈ registry)
    (hstack : ∀ p ∈ stack, p ∈ registry ∧ ReachesVia (edgeND registry f) p reg)
    (Hcirc : ∀ r h o u t', t' ∈ reg.requires → r ∈ registry →
      (t' = "*" ∨ r.type_ = t') → r.uid ≠ reg.uid →
      ¬(∃ p ∈ stack, p.uid = r.uid) → r.uid ∉ h → Inv registry D h o →
      recur r h o = .error (.circular u) → CircWitness registry f u) :
    ∀ ts h o u, (∀ s ∈ ts, s ∈ reg.requires) → Inv registry D h o →
      childReqLoop recur stack reg registry ts h o = .error (.circular u) →
      CircWitness registry f u := by
  intro ts
  induction ts with
  | nil => intro h o u _ _ hrun; simp [childReqLoop] at hrun
  | cons t ts ih =>
    intro h o u hts hi hrun
    have ht : t ∈ reg.requires := hts t (by simp)
    simp only [childReqLoop] at hrun
    cases hreg' : childRegLoop recur stack reg t registry h o with
    | error e =>
      rw [hreg'] at hrun
      simp at hrun
      subst hrun
      exact childRegLoop_circ hu hDf HrecOK ht hreg hstack
        (fun r h o u hr hm hne hns hh hi' hrec =>
          Hcirc r h o u t ht hr hm hne hns hh hi' hrec)
        registry h o u (fun x hx => hx) hi hreg'
    | ok p =>
      obtain ⟨h₁, o₁⟩ := p
      rw [hreg'] at hrun
      obtain ⟨hi₁, _, _⟩ :=
        childRegLoop_recurOK HrecOK ht registry h o h₁ o₁ (fun x hx => hx) hi hreg'
      exact ih h₁ o₁ u (fun s hs => hts s (by simp [hs])) hi₁ hrun

/-- A circular-dependency error of `children` always identifies a registry
registration lying on a genuine non-disabled dependency cycle. -/
theorem childrenAux_circ {registry : List Registration} {D : List Nat}
    {f : Registration → Bool} (hu : (uids registry).Nodup)
    (hDf : ∀ r ∈ registry, r.uid ∉ D → f r = false) :
    ∀ fuel stack reg h o u, reg ∈ registry →
      (∀ p ∈ stack, p ∈ registry ∧ ReachesVia (edgeND registry f) p reg) →
      Inv registry D h o →
      childrenAux fuel stack reg registry h o = .error (.circular u) →
      CircWitness registry f u := by
  intro fuel
  induction fuel with
  | zero => intro stack reg h o u _ _ _ hrun; simp [childrenAux] at hrun
  | succ fuel ih =>
    intro stack reg h o u hreg hstack hi hrun
    simp only [childrenAux] at hrun
    refine childReqLoop_circ hu hDf (childrenAux_recurOK registry D fuel (stack ++ [reg]))
      hreg hstack ?_ reg.requires h o u (fun s hs => hs) hi hrun
    intro r h₁ o₁ u' t' ht' hrreg hm hne hns hh hi₁ hrec
    have hfr : f r = false :=
      hDf r hrreg (fun hd => hh (hi₁.mem_handled_iff.mpr (Or.inr hd)))
    have hedge : edgeND registry f reg r := ⟨⟨hrreg, hne, ⟨t', ht', hm⟩⟩, hfr⟩
    refine ih (stack ++ [reg]) r h₁ o₁ u' hrreg ?_ hi₁ hrec
    intro p hp
    rcases List.mem_append.mp hp with hp | hp
    · exact ⟨(hstack p hp).1, ((hstack p hp).2).tail hedge⟩
    · simp at hp; subst hp
      exact ⟨hreg, .direct hedge⟩

theorem graphLoop_circ {registry : List Registration} {D : List Nat}
    {f : Registration → Bool} (hu : (uids registry).Nodup)
    (hDf : ∀ r ∈ registry, r.uid ∉ D → f r = false) (fuel : Nat) :
    ∀ rs h o u, (∀ x ∈ rs, x ∈ registry) → Inv registry D h o →
      graphLoop fuel registry rs h o = .error (.circular u) →
      CircWitness registry f u := by
  intro rs
  induction rs with
  | nil => intro h o u _ _ hrun; simp [graphLoop] at hrun
  | cons r rs ih =>
    intro h o u hsub hi hrun
    have hrreg : r ∈ registry := hsub r (by simp)
    have hsub' := fun x hx => hsub x (List.mem_cons_of_mem _ hx)
    by_cases hh : r.uid ∈ h
    · rw [graphLoop, if_pos hh] at hrun; exact ih h o u hsub' hi hrun
    · rw [graphLoop, if_neg hh] at hrun
      cases hrec : childrenAux fuel [] r registry h o with
      | error e =>
        rw [hrec] at hrun
        simp at hrun
        subst hrun
        exact childrenAux_circ hu hDf fuel [] r h o u hrreg (by simp) hi hrec
      | ok p =>
        obtain ⟨h₁, o₁⟩ := p
        rw [hrec] at hrun
        obtain ⟨hi₁, ⟨d₁, hdo₁, hp₁⟩, hqual⟩ :=
          childrenAux_recurOK registry D fuel [] r h o h₁ o₁ hrreg hh hi hrec
        have hrh₁ : r.uid ∉ h₁ :=
          not_handled_after_children hi hi₁ hh hdo₁ (fun x hx => (hp₁ x hx).2.2)
        exact ih _ _ u hsub' (hi₁.extend hrreg hrh₁ hqual) hrun

/-- A circular error of `Graph` identifies a registration of the registry on
a genuine non-disabled dependency cycle, named by its URI. -/
theorem Graph_circ {registry : List Registration} (hu : (uids registry).Nodup)
    {f : Registration → Bool} {u : String}
    (hcirc : Graph registry (some f) = .error (.circular u)) :
    CircWitness registry f u := by
  have hDf : ∀ r ∈ registry, r.uid ∉ disabledUids registry (some f) → f r = false := by
    intro r hr hnd
    rcases hfr : f r with _ | _
    · rfl
    · exact absurd ((mem_disabled_iff hu hr).mpr hfr) hnd
  unfold Graph at hcirc
  cases hrun : graphLoop (registry.length + 1) registry registry
      (disabledUids registry (some f)) [] with
  | error e =>
    rw [hrun] at hcirc
    simp at hcirc
    subst hcirc
    exact graphLoop_circ hu hDf _ registry _ [] u (fun x hx => hx)
      (Inv.initial _ _) hrun
  | ok p =>
    obtain ⟨h', o'⟩ := p
    rw [hrun] at hcirc
    simp at hcirc

/-- Any failure of `Graph` is a circular error witnessed by a genuine
dependency cycle. -/
theorem Graph_error_circ {registry : List Registration} (hu : (uids registry).Nodup)
    {f : Registration → Bool} {e : GraphErr}
    (he : Graph registry (some f) = .error e) :
    ∃ u, e = .circular u ∧ CircWitness registry f u := by
  cases e with
  | circular u => exact ⟨u, rfl, Graph_circ hu he⟩
  | outOfFuel => exact absurd he (Graph_nof hu _)

/-- Without a non-disabled dependency cycle, `Graph` succeeds. -/
theorem Graph_ok_of_no_cycle {registry : List Registration}
    (hu : (uids registry).Nodup) {f : Registration → Bool}
    (hnc : ¬ HasCycle registry f) :
    ∃ o, Graph registry (some f) = .ok o := by
  cases hg : Graph registry (some f) with
  | ok o => exact ⟨o, rfl⟩
  | error e =>
    obtain ⟨u, _, c, hc, _, hfc, hreach⟩ := Graph_error_circ hu hg
    exact absurd ⟨c, hc, hfc, hreach⟩ hnc

end PluginSpec

namespace PluginSpec

/-! ## Claim C2: termination and cycle detection -/

/-- C2.  `Graph` terminates on every finite registry (of distinct pointers)
and disable predicate: the fuelled embedding never exhausts its fuel.  And
whenever two non-disabled registrations require each other's types, directly
or transitively through non-disabled registrations, `Graph` fails with the
circular-dependency error, identifying (by URI) a registration at which the
cycle was detected. -/
theorem graph_cycle_detection (registry : List Registration)
    (hu : (uids registry).Nodup) (f : Registration → Bool) :
    Graph registry (some f) ≠ .error .outOfFuel ∧
    (∀ A B, A ∈ registry → B ∈ registry → f A = false → f B = false →
      ReachesVia (edgeND registry f) A B → ReachesVia (edgeND registry f) B A →
      ∃ r, r ∈ registry ∧ Graph registry (some f) = .error (.circular (uri r))) := by
  refine ⟨Graph_nof hu _, ?_⟩
  intro A B hA hB hfA hfB hAB hBA
  have hcyc : HasCycle registry f := ⟨A, hA, hfA, hAB.trans hBA⟩
  cases hg : Graph registry (some f) with
  | ok o => exact absurd hcyc (Graph_ok_no_cycle hu hg)
  | error e =>
    obtain ⟨u, rfl, c, hc, hcu, _, _⟩ := Graph_error_circ hu hg
    exact ⟨c, hc, by rw [hcu]⟩

/-- Witness for C2 at the two-element cyclic registry of
`TestRegisterErrors`/"circular". -/
theorem graph_cycle_detection_witness :
    Graph [(⟨0, "i", "p1", ["r"]⟩ : Registration), ⟨1, "r", "p2", ["i"]⟩]
        (some (fun _ => false)) ≠ .error .outOfFuel ∧
    (∃ r, r ∈ [(⟨0, "i", "p1", ["r"]⟩ : Registration), ⟨1, "r", "p2", ["i"]⟩] ∧
      Graph [(⟨0, "i", "p1", ["r"]⟩ : Registration), ⟨1, "r", "p2", ["i"]⟩]
          (some (fun _ => false)) = .error (.circular (uri r))) := by
  obtain ⟨h1, h2⟩ := graph_cycle_detection
    [(⟨0, "i", "p1", ["r"]⟩ : Registration), ⟨1, "r", "p2", ["i"]⟩]
    (by decide) (fun _ => false)
  refine ⟨h1, h2 ⟨0, "i", "p1", ["r"]⟩ ⟨1, "r", "p2", ["i"]⟩
    (by decide) (by decide) rfl rfl ?_ ?_⟩
  · exact .direct ⟨⟨by decide, by decide, ⟨"r", by decide, Or.inr rfl⟩⟩, rfl⟩
  · exact .direct ⟨⟨by decide, by decide, ⟨"i", by decide, Or.inr rfl⟩⟩, rfl⟩

/-! ## Claim C6: filter semantics -/

/-- A registration with no step out of it reaches nothing. -/
theorem not_reaches_of_no_step {step : Registration → Registration → Prop}
    {x : Registration} (h : ∀ y, ¬ step x y) : ∀ y, ¬ ReachesVia step x y := by
  intro y hreach
  cases hreach with
  | direct h1 => exact h _ h1
  | head h1 _ => exact h _ h1

/-- C6.  Filter semantics: every registration matched by the disable
predicate is excluded from any successful output; and disabled registrations
never produce failures — `Graph` succeeds whenever the non-disabled part of
the registry is acyclic, in particular when a requirement's only providers
are disabled (such a requirement contributes no non-disabled edge). -/
theorem graph_filter_semantics (registry : List Registration)
    (hu : (uids registry).Nodup) (f : Registration → Bool) :
    (∀ o, Graph registry (some f) = .ok o → ∀ r ∈ registry, f r = true → r ∉ o) ∧
    (¬ HasCycle registry f → ∃ o, Graph registry (some f) = .ok o) := by
  constructor
  · intro o hok r hr hfr hmem
    have hcontra := (Graph_output_mem hu hok hmem).2
    rw [hfr] at hcontra
    cases hcontra
  · exact fun hnc => Graph_ok_of_no_cycle hu hnc

/-- Witness for C6: a registration requiring a type whose only provider is
disabled; the disabled provider is dropped and `Graph` still succeeds. -/
theorem graph_filter_semantics_witness :
    ((⟨1, "d", "dp", []⟩ : Registration) ∉ [(⟨0, "a", "x", ["d"]⟩ : Registration)]) ∧
    (∃ o, Graph [(⟨0, "a", "x", ["d"]⟩ : Registration), ⟨1, "d", "dp", []⟩]
        (some (fun r => r.type_ == "d")) = .ok o) := by
  obtain ⟨h1, h2⟩ := graph_filter_semantics
    [(⟨0, "a", "x", ["d"]⟩ : Registration), ⟨1, "d", "dp", []⟩] (by decide)
    (fun r => r.type_ == "d")
  have hok : Graph [(⟨0, "a", "x", ["d"]⟩ : Registration), ⟨1, "d", "dp", []⟩]
      (some (fun r => r.type_ == "d")) = .ok [⟨0, "a", "x", ["d"]⟩] := by decide
  refine ⟨h1 _ hok _ (by decide) (by decide), h2 ?_⟩
  rintro ⟨c, hc, hfc, hreach⟩
  simp only [List.mem_cons, List.not_mem_nil, or_false] at hc
  rcases hc with rfl | rfl
  · refine not_reaches_of_no_step ?_ _ hreach
    rintro y ⟨⟨hy, hne, t, htc, hm⟩, hfy⟩
    simp only [List.mem_singleton] at htc
    subst htc
    rcases hm with hm | hm
    · exact absurd hm (by decide)
    · simp only [List.mem_cons, List.not_mem_nil, or_false] at hy
      rcases hy with rfl | rfl
      · exact absurd hm (by decide)
      · exact absurd hfy (by decide)
  · exact absurd hfc (by decide)

/-! ## Claim C9: nil disable filter -/

/-- C9.  A nil disable filter is accepted: `Graph` with a nil filter treats
no registration as disabled — it coincides with `Graph` under the
never-true predicate (the nil callback is never invoked) — and orders the
entire registry. -/
theorem graph_nil_filter (registry : List Registration) :
    Graph registry none = Graph registry (some (fun _ => false)) ∧
    ((uids registry).Nodup → ∀ o, Graph registry none = .ok o →
      ∀ r ∈ registry, r ∈ o) := by
  have hD : disabledUids registry (some (fun _ => false)) = ([] : List Nat) := by
    simp [disabledUids]
  have heqG : Graph registry none = Graph registry (some (fun _ => false)) := by
    unfold Graph
    have h2 : disabledUids registry none = ([] : List Nat) := rfl
    rw [hD, h2]
  refine ⟨heqG, ?_⟩
  intro hu o hok r hr
  have hok' : Graph registry (some (fun _ => false)) = .ok o := by
    rw [← heqG]; exact hok
  exact Graph_mem_output hu hok' hr rfl

/-- Witness for C9 at a one-element registry. -/
theorem graph_nil_filter_witness :
    (Graph [(⟨0, "w", "v", []⟩ : Registration)] none =
      Graph [(⟨0, "w", "v", []⟩ : Registration)] (some (fun _ => false))) ∧
    ((⟨0, "w", "v", []⟩ : Registration) ∈ [(⟨0, "w", "v", []⟩ : Registration)]) := by
  obtain ⟨h1, h2⟩ := graph_nil_filter [(⟨0, "w", "v", []⟩ : Registration)]
  have hok : Graph [(⟨0, "w", "v", []⟩ : Registration)] none =
      .ok [⟨0, "w", "v", []⟩] := by decide
  exact ⟨h1, h2 (by decide) _ hok _ (by decide)⟩

/-! ## Claim C10: unmatched requirements are silently ignored -/

/-- C10.  A required type that matches no registration contributes no
dependency edge (an `edge` requires a matching registry member by
definition), and can never make `Graph` fail: every failure of `Graph` is a
circular error witnessed by a cycle of genuine, matched, non-disabled
dependency edges. -/
theorem graph_unmatched_requirement (registry : List Registration)
    (hu : (uids registry).Nodup) (f : Registration → Bool) (e : GraphErr)
    (he : Graph registry (some f) = .error e) :
    (∃ u, e = .circular u) ∧ HasCycle registry f := by
  obtain ⟨u, rfl, c, hc, _, hfc, hreach⟩ := Graph_error_circ hu he
  exact ⟨⟨u, rfl⟩, c, hc, hfc, hreach⟩

/-- Witness for C10 at a concrete failing registry: the failure exhibits a
genuine two-element cycle. -/
theorem graph_unmatched_requirement_witness :
    (∃ u, GraphErr.circular "a.x" = GraphErr.circular u) ∧
    HasCycle [(⟨0, "a", "x", ["b"]⟩ : Registration), ⟨1, "b", "y", ["a"]⟩]
      (fun _ => false) := by
  exact graph_unmatched_requirement
    [(⟨0, "a", "x", ["b"]⟩ : Registration), ⟨1, "b", "y", ["a"]⟩]
    (by decide) (fun _ => false) (GraphErr.circular "a.x") (by decide)

end PluginSpec

namespace PluginSpec

/-! ## Claim C3: the Register contract -/

/-- The malformed-requires test of `Register` (plugin.go:171-175) fires
exactly when the wildcard appears together with another entry or the
registration requires its own type. -/
theorem invalid_requires_iff (r : Registration) :
    (r.requires.any
        (fun req => (req == "*" && r.requires.length != 1) || req == r.type_) = true)
      ↔ (("*" ∈ r.requires ∧ r.requires.length ≠ 1) ∨ r.type_ ∈ r.requires) := by
  simp only [List.any_eq_true, Bool.or_eq_true, Bool.and_eq_true, beq_iff_eq, bne_iff_ne]
  constructor
  · rintro ⟨req, hmem, ⟨rfl, hlen⟩ | rfl⟩
    · exact Or.inl ⟨hmem, hlen⟩
    · exact Or.inr hmem
  · rintro (⟨hmem, hlen⟩ | hmem)
    · exact ⟨"*", hmem, Or.inl ⟨rfl, hlen⟩⟩
    · exact ⟨r.type_, hmem, Or.inr rfl⟩

/-- `checkUnique` (plugin.go:180) accepts exactly when no registration with
the same (Type, ID) pair is present. -/
theorem checkUnique_eq_none_iff (registry : List Registration) (r : Registration) :
    checkUnique registry r = none ↔
      ¬ ∃ x ∈ registry, x.type_ = r.type_ ∧ x.id = r.id := by
  unfold checkUnique
  by_cases h : registry.any (fun x => x.type_ == r.type_ && x.id == r.id) = true
  · rw [if_pos h]
    simp only [List.any_eq_true, Bool.and_eq_true, beq_iff_eq] at h
    simp [h]
  · rw [if_neg h]
    simp only [List.any_eq_true, Bool.and_eq_true, beq_iff_eq] at h
    simp [h]

/-- C3.  `Register` fails exactly when the new registration's type is empty,
its id is empty, a registration with the same (Type, ID) already exists, its
requires list contains the wildcard together with another entry, or it
requires its own type; on success it returns the registry with the new
registration appended after all prior entries, which keep their order. -/
theorem register_spec (registry : List Registration) (r : Registration) :
    ((∃ e, Register registry r = .error e) ↔
      (r.type_ = "" ∨ r.id = "" ∨
        (∃ x ∈ registry, x.type_ = r.type_ ∧ x.id = r.id) ∨
        ("*" ∈ r.requires ∧ r.requires.length ≠ 1) ∨
        r.type_ ∈ r.requires)) ∧
    (∀ l, Register registry r = .ok l → l = registry ++ [r]) := by
  by_cases h1 : r.type_ = ""
  · refine ⟨⟨fun _ => Or.inl h1, fun _ => ⟨.noType, ?_⟩⟩, ?_⟩
    · unfold Register; rw [if_pos h1]
    · intro l hl; unfold Register at hl; rw [if_pos h1] at hl; simp at hl
  · by_cases h2 : r.id = ""
    · refine ⟨⟨fun _ => Or.inr (Or.inl h2), fun _ => ⟨.noPluginID, ?_⟩⟩, ?_⟩
      · unfold Register; rw [if_neg h1, if_pos h2]
      · intro l hl; unfold Register at hl; rw [if_neg h1, if_pos h2] at hl; simp at hl
    · cases hcu : checkUnique registry r with
      | some e =>
        have hdup : ∃ x ∈ registry, x.type_ = r.type_ ∧ x.id = r.id := by
          by_contra hnd
          rw [(checkUnique_eq_none_iff registry r).mpr hnd] at hcu
          cases hcu
        refine ⟨⟨fun _ => Or.inr (Or.inr (Or.inl hdup)), fun _ => ⟨e, ?_⟩⟩, ?_⟩
        · unfold Register; rw [if_neg h1, if_neg h2, hcu]
        · intro l hl; unfold Register at hl; rw [if_neg h1, if_neg h2, hcu] at hl
          simp at hl
      | none =>
        have hdup : ¬ ∃ x ∈ registry, x.type_ = r.type_ ∧ x.id = r.id :=
          (checkUnique_eq_none_iff registry r).mp hcu
        by_cases h4 : r.requires.any
            (fun req => (req == "*" && r.requires.length != 1) || req == r.type_) = true
        · have hreq := (invalid_requires_iff r).mp h4
          refine ⟨⟨fun _ => Or.inr (Or.inr (Or.inr hreq)),
            fun _ => ⟨.invalidRequires, ?_⟩⟩, ?_⟩
          · unfold Register; rw [if_neg h1, if_neg h2, hcu, if_pos h4]
          · intro l hl; unfold Register at hl
            rw [if_neg h1, if_neg h2, hcu, if_pos h4] at hl
            simp at hl
        · have hreq : ¬ (("*" ∈ r.requires ∧ r.requires.length ≠ 1) ∨
              r.type_ ∈ r.requires) :=
            fun hb => h4 ((invalid_requires_iff r).mpr hb)
          have hok : Register registry r = .ok (registry ++ [r]) := by
            unfold Register; rw [if_neg h1, if_neg h2, hcu, if_neg h4]
          refine ⟨⟨?_, ?_⟩, ?_⟩
          · rintro ⟨e, he⟩
            rw [hok] at he
            simp at he
          · rintro (hb | hb | hb | hb | hb)
            · exact absurd hb h1
            · exact absurd hb h2
            · exact absurd hb hdup
            · exact absurd (Or.inl hb) hreq
            · exact absurd (Or.inr hb) hreq
          · intro l hl
            rw [hok] at hl
            simp at hl
            exact hl.symm

/-- Witness for C3: a duplicate (Type, ID) registration fails, and a fresh
one is appended at the end. -/
theorem register_spec_witness :
    (∃ e, Register [(⟨0, "m", "cg", []⟩ : Registration)] ⟨1, "m", "cg", []⟩ =
      .error e) ∧
    ([(⟨0, "m", "cg", []⟩ : Registration), ⟨1, "n", "x", []⟩] =
      [(⟨0, "m", "cg", []⟩ : Registration)] ++ [⟨1, "n", "x", []⟩]) := by
  obtain ⟨hiff, _⟩ := register_spec [(⟨0, "m", "cg", []⟩ : Registration)] ⟨1, "m", "cg", []⟩
  obtain ⟨_, hok2⟩ := register_spec [(⟨0, "m", "cg", []⟩ : Registration)] ⟨1, "n", "x", []⟩
  refine ⟨hiff.mpr (Or.inr (Or.inr (Or.inl ⟨⟨0, "m", "cg", []⟩, by decide, rfl, rfl⟩))), ?_⟩
  exact hok2 _ (by decide)

end PluginSpec

namespace PluginSpec

-- The `GetSingle` rows of `TestGetPlugins` (plugin_test.go:405-414) replayed
-- against the spec-modelled lookup.
example : GetSingle pluginFixtures "type1" = .found "id1" := by decide
example : GetSingle pluginFixtures "type2" = .notFound := by decide
example : GetSingle pluginFixtures "type3" = .found "id4" := by decide
example : GetSingle pluginFixtures "type4" = .multipleInstances := by decide
example : GetSingle pluginFixtures "type5" = .failed "otherErr" := by decide

/-- The qualifying instances are counted by the qualifying predicate. -/
theorem qualList_length (ps : List Plugin) (t : String) :
    (qualList ps t).length =
      ps.countP (fun p => p.type_ == t && isOkResult p.result) := by
  induction ps with
  | nil => rfl
  | cons p ps ih =>
    unfold qualList at ih ⊢
    rw [List.filter_cons, List.countP_cons]
    by_cases hp : (p.type_ == t) = true
    · simp only [hp, if_true, List.filterMap_cons]
      cases hr : p.result with
      | ok i => simp [hr, isOkResult, ih]
      | skip => simp [hr, isOkResult, ih]
      | failed m => simp [hr, isOkResult, ih]
    · simp only [Bool.not_eq_true] at hp
      simp [hp, ih]

/-- A stored instance of the right type occurs among the qualifying
instances. -/
theorem mem_qualList {ps : List Plugin} {t : String} {p : Plugin} {i : String}
    (hp : p ∈ ps) (ht : p.type_ = t) (hr : p.result = .ok i) :
    i ∈ qualList ps t := by
  unfold qualList
  refine List.mem_filterMap.mpr ⟨p, List.mem_filter.mpr ⟨hp, by simp [ht]⟩, ?_⟩
  rw [hr]

end PluginSpec

namespace PluginSpec

/-- Reduction of `GetSingle` when no instance qualifies and no entry of the
type is stored. -/
theorem getSingle_empty_nil {ps : List Plugin} {t : String}
    (hq0 : qualList ps t = []) (he : ps.filter (fun p => p.type_ == t) = []) :
    GetSingle ps t = .notFound := by
  unfold GetSingle; rw [hq0, he]

/-- Reduction of `GetSingle` when no instance qualifies and exactly one
entry of the type is stored. -/
theorem getSingle_empty_single {ps : List Plugin} {t : String} {q : Plugin}
    (hq0 : qualList ps t = []) (he : ps.filter (fun p => p.type_ == t) = [q]) :
    GetSingle ps t = (match q.result with
      | .failed m => .failed m
      | _ => .notFound) := by
  unfold GetSingle; rw [hq0, he]

/-- Reduction of `GetSingle` when no instance qualifies and at least two
entries of the type are stored. -/
theorem getSingle_empty_many {ps : List Plugin} {t : String} {q q2 : Plugin}
    {qs : List Plugin} (hq0 : qualList ps t = [])
    (he : ps.filter (fun p => p.type_ == t) = q :: q2 :: qs) :
    GetSingle ps t = .notFound := by
  unfold GetSingle; rw [hq0, he]

/-- C7.  Characterization of the spec-modelled `GetSingle`: with exactly one
qualifying (produced-instance) plugin of the type it returns that instance;
with none it fails with not-found — unless the type has exactly one stored
entry and that entry recorded a non-skip error, which is propagated verbatim
(the propagation clause taking precedence, as in the spec's §8 examples);
with more than one qualifying plugin it fails with multiple-instances. -/
theorem getSingle_spec (ps : List Plugin) (t : String) :
    (∀ p i, p ∈ ps → p.type_ = t → p.result = .ok i →
      ps.countP (fun q => q.type_ == t && isOkResult q.result) = 1 →
      GetSingle ps t = .found i) ∧
    (ps.countP (fun q => q.type_ == t && isOkResult q.result) = 0 →
      (ps.countP (fun q => q.type_ == t) ≠ 1 ∨
        ∀ p ∈ ps, p.type_ = t → ∀ m, p.result ≠ .failed m) →
      GetSingle ps t = .notFound) ∧
    (2 ≤ ps.countP (fun q => q.type_ == t && isOkResult q.result) →
      GetSingle ps t = .multipleInstances) ∧
    (∀ p m, p ∈ ps → p.type_ = t → p.result = .failed m →
      ps.countP (fun q => q.type_ == t) = 1 →
      GetSingle ps t = .failed m) := by
  refine ⟨?_, ?_, ?_, ?_⟩
  · -- unique qualifying instance
    intro p i hp ht hr hcnt
    have hlen : (qualList ps t).length = 1 := by rw [qualList_length]; exact hcnt
    obtain ⟨j, hj⟩ := List.length_eq_one.mp hlen
    have hmem : i ∈ qualList ps t := mem_qualList hp ht hr
    rw [hj] at hmem
    simp at hmem
    subst hmem
    unfold GetSingle
    rw [hj]
  · -- zero qualifying entries
    intro hcnt hcond
    have hlen : (qualList ps t).length = 0 := by rw [qualList_length]; exact hcnt
    have hq0 : qualList ps t = [] := List.length_eq_zero.mp hlen
    cases he : ps.filter (fun p => p.type_ == t) with
    | nil => exact getSingle_empty_nil hq0 he
    | cons q qs =>
      cases qs with
      | nil =>
        have hq1 : ps.countP (fun q => q.type_ == t) = 1 := by
          rw [List.countP_eq_length_filter, he]
          rfl
        rcases hcond with hcond | hcond
        · exact absurd hq1 hcond
        · have hqm : q ∈ ps.filter (fun p => p.type_ == t) := by rw [he]; simp
          have hqps : q ∈ ps := (List.mem_filter.mp hqm).1
          have hqt : q.type_ = t := by
            have h2 := (List.mem_filter.mp hqm).2
            simpa using h2
          rw [getSingle_empty_single hq0 he]
          cases hr : q.result with
          | ok i => rfl
          | skip => rfl
          | failed m => exact absurd hr (hcond q hqps hqt m)
      | cons q2 qs2 => exact getSingle_empty_many hq0 he
  · -- at least two qualifying entries
    intro h2
    have hlen : 2 ≤ (qualList ps t).length := by rw [qualList_length]; exact h2
    cases hql : qualList ps t with
    | nil => rw [hql] at hlen; simp at hlen
    | cons a l =>
      cases l with
      | nil => rw [hql] at hlen; simp at hlen
      | cons b l2 =>
        unfold GetSingle
        rw [hql]
  · -- exactly one entry of the type, failed with a non-skip error
    intro p m hp ht hr hcnt
    have hlen : (ps.filter (fun q => q.type_ == t)).length = 1 := by
      rw [← List.countP_eq_length_filter]
      exact hcnt
    obtain ⟨q, he⟩ := List.length_eq_one.mp hlen
    have hpm : p ∈ ps.filter (fun q => q.type_ == t) :=
      List.mem_filter.mpr ⟨hp, by simp [ht]⟩
    rw [he] at hpm
    simp at hpm
    subst hpm
    have hq0 : qualList ps t = [] := by
      unfold qualList
      rw [he, List.filterMap_cons]
      simp [hr]
    rw [getSingle_empty_single hq0 he, hr]

/-- Witness for C7 on the plugin set of spec §8 / `TestGetPlugins`:
GetSingle(type1) finds "id1", GetSingle(type2) is not-found,
GetSingle(type4) reports multiple instances, and GetSingle(type5)
propagates the stored error. -/
theorem getSingle_spec_witness :
    GetSingle pluginFixtures "type1" = .found "id1" ∧
    GetSingle pluginFixtures "type2" = .notFound ∧
    GetSingle pluginFixtures "type4" = .multipleInstances ∧
    GetSingle pluginFixtures "type5" = .failed "otherErr" := by
  obtain ⟨c1, c2, c3, c4⟩ := getSingle_spec pluginFixtures "type1"
  obtain ⟨d1, d2, d3, d4⟩ := getSingle_spec pluginFixtures "type2"
  obtain ⟨e1, e2, e3, e4⟩ := getSingle_spec pluginFixtures "type4"
  obtain ⟨f1, f2, f3, f4⟩ := getSingle_spec pluginFixtures "type5"
  refine ⟨c1 ⟨"type1", "id1", .ok "id1"⟩ "id1" (by decide) rfl rfl (by decide),
    ?_, e3 (by decide),
    f4 ⟨"type5", "id7", .failed "otherErr"⟩ "otherErr" (by decide) rfl rfl (by decide)⟩
  refine d2 (by decide) (Or.inr ?_)
  intro p hp ht m hcon
  simp only [pluginFixtures, List.mem_cons, List.not_mem_nil, or_false] at hp
  rcases hp with rfl | rfl | rfl | rfl | rfl | rfl | rfl
  all_goals first
    | exact absurd ht (by decide)
    | cases hcon

end PluginSpec

namespace PluginSpec

/-! ## Claim C8: Registry immutability under Go append semantics -/

/-- C8 (code bug).  `Register` returns `append(registry, r)` (plugin.go:177)
with no defensive copy, so two `Register` calls extending the same Registry
value interfere through the shared backing array: after
`r4 := r3.Register(d)`, running `r3.Register(e)` overwrites the cell that
made `r4`'s last element, and `r4` observes `e` where it held `d` — contrary
to the doc comment at plugin.go:106-109 ("the list will be copied") and the
spec's immutability requirement. -/
theorem register_aliasing_violation :
    heapRead aliasSt4.1 aliasSt4.2 =
      [⟨1, "t1", "a", []⟩, ⟨2, "t2", "b", []⟩, ⟨3, "t3", "c", []⟩,
        ⟨4, "t4", "d", []⟩] ∧
    heapRead aliasSt5.1 aliasSt4.2 =
      [⟨1, "t1", "a", []⟩, ⟨2, "t2", "b", []⟩, ⟨3, "t3", "c", []⟩,
        ⟨5, "t5", "e", []⟩] ∧
    heapRead aliasSt5.1 aliasSt4.2 ≠ heapRead aliasSt4.1 aliasSt4.2 := by
  refine ⟨by decide, by decide, by decide⟩

end PluginSpec

namespace PluginSpec

/-! ## Claim C4: stability / tie-break -/

/-- A registration with an empty requires list has no outgoing dependency
edge. -/
theorem no_edge_of_no_requires {registry : List Registration} {x : Registration}
    (h : x.requires = []) : ∀ y, ¬ edge registry x y := by
  rintro y ⟨_, _, t, ht, _⟩
  rw [h] at ht
  cases ht

/-- C4 counterexample.  In the registry [C, A, B] where C requires B's type
and A, B are unrelated (neither reaches the other through dependency edges,
neither uses the wildcard, neither is disabled), `Graph` outputs [B, C, A]:
B — registered after A — precedes A, refuting the claimed
registration-order tie-break for unrelated registrations. -/
theorem graph_stability_counterexample :
    Graph [(⟨0, "c", "c", ["b"]⟩ : Registration), ⟨1, "a", "a", []⟩, ⟨2, "b", "b", []⟩]
        (some (fun _ => false)) =
      .ok [⟨2, "b", "b", []⟩, ⟨0, "c", "c", ["b"]⟩, ⟨1, "a", "a", []⟩] ∧
    ¬ ReachesVia
      (edge [(⟨0, "c", "c", ["b"]⟩ : Registration), ⟨1, "a", "a", []⟩, ⟨2, "b", "b", []⟩])
      ⟨1, "a", "a", []⟩ ⟨2, "b", "b", []⟩ ∧
    ¬ ReachesVia
      (edge [(⟨0, "c", "c", ["b"]⟩ : Registration), ⟨1, "a", "a", []⟩, ⟨2, "b", "b", []⟩])
      ⟨2, "b", "b", []⟩ ⟨1, "a", "a", []⟩ ∧
    "*" ∉ (⟨1, "a", "a", []⟩ : Registration).requires ∧
    "*" ∉ (⟨2, "b", "b", []⟩ : Registration).requires ∧
    posOf [(⟨2, "b", "b", []⟩ : Registration), ⟨0, "c", "c", ["b"]⟩, ⟨1, "a", "a", []⟩] 2 <
      posOf [(⟨2, "b", "b", []⟩ : Registration), ⟨0, "c", "c", ["b"]⟩, ⟨1, "a", "a", []⟩] 1 := by
  refine ⟨by decide, ?_, ?_, by decide, by decide, by decide⟩
  · exact not_reaches_of_no_step (no_edge_of_no_requires rfl) _
  · exact not_reaches_of_no_step (no_edge_of_no_requires rfl) _

end PluginSpec

namespace PluginSpec

/-- Second phase of the stability argument: once the loop's worklist is
`rb ++ B :: rc` with `B` unreached by any dependency and not yet handled,
`B` is emitted after everything already in the output. -/
theorem graphLoop_reaches_B {registry : List Registration} (hu : (uids registry).Nodup)
    {D : List Nat} (fuel : Nat) {B : Registration} (hB : B ∈ registry)
    (hnB : ∀ X ∈ registry, ¬ ReachesVia (edge registry) X B) :
    ∀ rb rc h o h' o', (∀ x ∈ rb ++ B :: rc, x ∈ registry) → Inv registry D h o →
      B.uid ∉ uids rb → B.uid ∉ h →
      graphLoop fuel registry (rb ++ B :: rc) h o = .ok (h', o') →
      ∃ l₂ l₃, o' = o ++ l₂ ++ B :: l₃ := by
  intro rb
  induction rb with
  | nil =>
    intro rc h o h' o' hsub hi _ hBh hrun
    rw [List.nil_append, graphLoop, if_neg hBh] at hrun
    cases hrec : childrenAux fuel [] B registry h o with
    | error e => rw [hrec] at hrun; simp at hrun
    | ok pq =>
      obtain ⟨h₁, o₁⟩ := pq
      rw [hrec] at hrun
      obtain ⟨hi₁, ⟨d₁, hdo₁, hp₁⟩, hqual⟩ :=
        childrenAux_recurOK registry D fuel [] B h o h₁ o₁ hB hBh hi hrec
      have hrh₁ : B.uid ∉ h₁ :=
        not_handled_after_children hi hi₁ hBh hdo₁ (fun x hx => (hp₁ x hx).2.2)
      have hi₂ : Inv registry D (B.uid :: h₁) (o₁ ++ [B]) := hi₁.extend hB hrh₁ hqual
      obtain ⟨hi', ⟨d₂, hdo₂, _⟩, _⟩ :=
        graphLoop_run fuel rc _ _ h' o' (fun x hx => hsub x (by simp [hx])) hi₂ hrun
      exact ⟨d₁, d₂, by rw [hdo₂, hdo₁]; simp⟩
  | cons r rb ih =>
    intro rc h o h' o' hsub hi hBrb hBh hrun
    simp only [List.cons_append] at hrun
    have hrreg : r ∈ registry := hsub r (by simp)
    have hBr : B.uid ≠ r.uid := fun he => hBrb (mem_uids_cons_iff.mpr (Or.inl he))
    have hBrb' : B.uid ∉ uids rb := fun hm => hBrb (mem_uids_cons_iff.mpr (Or.inr hm))
    have hsub' : ∀ x ∈ rb ++ B :: rc, x ∈ registry := fun x hx => hsub x (by simp [hx])
    by_cases hh : r.uid ∈ h
    · rw [graphLoop, if_pos hh] at hrun
      exact ih rc h o h' o' hsub' hi hBrb' hBh hrun
    · rw [graphLoop, if_neg hh] at hrun
      cases hrec : childrenAux fuel [] r registry h o with
      | error e => rw [hrec] at hrun; simp at hrun
      | ok pq =>
        obtain ⟨h₁, o₁⟩ := pq
        rw [hrec] at hrun
        obtain ⟨hi₁, ⟨d₁, hdo₁, hp₁⟩, hqual⟩ :=
          childrenAux_recurOK registry D fuel [] r h o h₁ o₁ hrreg hh hi hrec
        have hd₁B : ∀ x ∈ d₁, x.uid ≠ B.uid := by
          intro x hx he
          have hxreg : x ∈ registry :=
            hi₁.subset x (by rw [hdo₁]; exact List.mem_append_right _ hx)
          have hxB : x = B := uid_inj hu hxreg hB he
          refine hnB r hrreg ?_
          rw [← hxB]
          exact (hp₁ x hx).1
        have hrh₁ : r.uid ∉ h₁ :=
          not_handled_after_children hi hi₁ hh hdo₁ (fun x hx => (hp₁ x hx).2.2)
        have hi₂ : Inv registry D (r.uid :: h₁) (o₁ ++ [r]) := hi₁.extend hrreg hrh₁ hqual
        have hBh₂ : B.uid ∉ r.uid :: h₁ := by
          intro hmem
          rcases List.mem_cons.mp hmem with he | hmem
          · exact hBr he
          · exact not_handled_after_children hi hi₁ hBh hdo₁ hd₁B hmem
        obtain ⟨l₂, l₃, hdec⟩ := ih rc _ _ h' o' hsub' hi₂ hBrb' hBh₂ hrun
        exact ⟨d₁ ++ [r] ++ l₂, l₃, by rw [hdec, hdo₁]; simp⟩

/-- First phase of the stability argument: with worklist
`ra ++ A :: rb ++ B :: rc`, and neither `A` nor `B` reached by any
dependency or yet handled, the output places `A` strictly before `B`. -/
theorem graphLoop_reaches_AB {registry : List Registration} (hu : (uids registry).Nodup)
    {D : List Nat} (fuel : Nat) {A B : Registration}
    (hA : A ∈ registry) (hB : B ∈ registry)
    (hnA : ∀ X ∈ registry, ¬ ReachesVia (edge registry) X A)
    (hnB : ∀ X ∈ registry, ¬ ReachesVia (edge registry) X B)
    (hAB : A.uid ≠ B.uid) :
    ∀ ra rbc h o h' o', (∀ x ∈ ra ++ A :: rbc, x ∈ registry) → Inv registry D h o →
      A.uid ∉ uids ra → A.uid ∉ h → B.uid ∉ uids ra → B.uid ∉ h →
      (∃ rb rc, rbc = rb ++ B :: rc ∧ B.uid ∉ uids rb) →
      graphLoop fuel registry (ra ++ A :: rbc) h o = .ok (h', o') →
      ∃ l₁ l₂ l₃, o' = o ++ l₁ ++ A :: l₂ ++ B :: l₃ := by
  intro ra
  induction ra with
  | nil =>
    intro rbc h o h' o' hsub hi _ hAh _ hBh hrbc hrun
    obtain ⟨rb, rc, rfl, hBrb⟩ := hrbc
    rw [List.nil_append, graphLoop, if_neg hAh] at hrun
    cases hrec : childrenAux fuel [] A registry h o with
    | error e => rw [hrec] at hrun; simp at hrun
    | ok pq =>
      obtain ⟨h₁, o₁⟩ := pq
      rw [hrec] at hrun
      obtain ⟨hi₁, ⟨d₁, hdo₁, hp₁⟩, hqual⟩ :=
        childrenAux_recurOK registry D fuel [] A h o h₁ o₁ hA hAh hi hrec
      have hd₁B : ∀ x ∈ d₁, x.uid ≠ B.uid := by
        intro x hx he
        have hxreg : x ∈ registry :=
          hi₁.subset x (by rw [hdo₁]; exact List.mem_append_right _ hx)
        have hxB : x = B := uid_inj hu hxreg hB he
        refine hnB A hA ?_
        rw [← hxB]
        exact (hp₁ x hx).1
      have hrh₁ : A.uid ∉ h₁ :=
        not_handled_after_children hi hi₁ hAh hdo₁ (fun x hx => (hp₁ x hx).2.2)
      have hi₂ : Inv registry D (A.uid :: h₁) (o₁ ++ [A]) := hi₁.extend hA hrh₁ hqual
      have hBh₂ : B.uid ∉ A.uid :: h₁ := by
        intro hmem
        rcases List.mem_cons.mp hmem with he | hmem
        · exact hAB he.symm
        · exact not_handled_after_children hi hi₁ hBh hdo₁ hd₁B hmem
      obtain ⟨l₂, l₃, hdec⟩ := graphLoop_reaches_B hu fuel hB hnB rb rc _ _ h' o'
        (fun x hx => hsub x (by simp [hx])) hi₂ hBrb hBh₂ hrun
      exact ⟨d₁, l₂, l₃, by rw [hdec, hdo₁]; simp⟩
  | cons r ra ih =>
    intro rbc h o h' o' hsub hi hAra hAh hBra hBh hrbc hrun
    simp only [List.cons_append] at hrun
    have hrreg : r ∈ registry := hsub r (by simp)
    have hAr : A.uid ≠ r.uid := fun he => hAra (mem_uids_cons_iff.mpr (Or.inl he))
    have hBr : B.uid ≠ r.uid := fun he => hBra (mem_uids_cons_iff.mpr (Or.inl he))
    have hAra' : A.uid ∉ uids ra := fun hm => hAra (mem_uids_cons_iff.mpr (Or.inr hm))
    have hBra' : B.uid ∉ uids ra := fun hm => hBra (mem_uids_cons_iff.mpr (Or.inr hm))
    have hsub' : ∀ x ∈ ra ++ A :: rbc, x ∈ registry := fun x hx => hsub x (by simp [hx])
    by_cases hh : r.uid ∈ h
    · rw [graphLoop, if_pos hh] at hrun
      exact ih rbc h o h' o' hsub' hi hAra' hAh hBra' hBh hrbc hrun
    · rw [graphLoop, if_neg hh] at hrun
      cases hrec : childrenAux fuel [] r registry h o with
      | error e => rw [hrec] at hrun; simp at hrun
      | ok pq =>
        obtain ⟨h₁, o₁⟩ := pq
        rw [hrec] at hrun
        obtain ⟨hi₁, ⟨d₁, hdo₁, hp₁⟩, hqual⟩ :=
          childrenAux_recurOK registry D fuel [] r h o h₁ o₁ hrreg hh hi hrec
        have hd₁A : ∀ x ∈ d₁, x.uid ≠ A.uid := by
          intro x hx he
          have hxreg : x ∈ registry :=
            hi₁.subset x (by rw [hdo₁]; exact List.mem_append_right _ hx)
          have hxA : x = A := uid_inj hu hxreg hA he
          refine hnA r hrreg ?_
          rw [← hxA]
          exact (hp₁ x hx).1
        have hd₁B : ∀ x ∈ d₁, x.uid ≠ B.uid := by
          intro x hx he
          have hxreg : x ∈ registry :=
            hi₁.subset x (by rw [hdo₁]; exact List.mem_append_right _ hx)
          have hxB : x = B := uid_inj hu hxreg hB he
          refine hnB r hrreg ?_
          rw [← hxB]
          exact (hp₁ x hx).1
        have hrh₁ : r.uid ∉ h₁ :=
          not_handled_after_children hi hi₁ hh hdo₁ (fun x hx => (hp₁ x hx).2.2)
        have hi₂ : Inv registry D (r.uid :: h₁) (o₁ ++ [r]) := hi₁.extend hrreg hrh₁ hqual
        have hAh₂ : A.uid ∉ r.uid :: h₁ := by
          intro hmem
          rcases List.mem_cons.mp hmem with he | hmem
          · exact hAr he
          · exact not_handled_after_children hi hi₁ hAh hdo₁ hd₁A hmem
        have hBh₂ : B.uid ∉ r.uid :: h₁ := by
          intro hmem
          rcases List.mem_cons.mp hmem with he | hmem
          · exact hBr he
          · exact not_handled_after_children hi hi₁ hBh hdo₁ hd₁B hmem
        obtain ⟨l₁, l₂, l₃, hdec⟩ :=
          ih rbc _ _ h' o' hsub' hi₂ hAra' hAh₂ hBra' hBh₂ hrbc hrun
        exact ⟨d₁ ++ [r] ++ l₁, l₂, l₃, by rw [hdec, hdo₁]; simp⟩

end PluginSpec

namespace PluginSpec

/-- C4 amended.  Stability holds for registrations that are not pulled
forward as dependencies: for every two non-disabled registrations A and B
(A registered first) such that NO registration of the registry requires,
directly or transitively, a type that A or B satisfies — in particular they
have no dependency relationship to each other and neither uses the
wildcard — A appears strictly before B in `Graph`'s output, i.e. in
registration order.  (The unamended claim fails: a third registration
requiring B's type pulls B ahead of A, see the counterexample.) -/
theorem graph_stability_unpulled
    {registry : List Registration} (hu : (uids registry).Nodup)
    {f : Registration → Bool} {A B : Registration}
    {p m s : List Registration}
    (hreg : registry = p ++ A :: (m ++ B :: s))
    (hfA : f A = false) (hfB : f B = false)
    (hnA : ∀ X ∈ registry, ¬ ReachesVia (edge registry) X A)
    (hnB : ∀ X ∈ registry, ¬ ReachesVia (edge registry) X B)
    {o : List Registration} (hok : Graph registry (some f) = .ok o) :
    ∃ l₁ l₂ l₃, o = l₁ ++ A :: (l₂ ++ B :: l₃) := by
  have hA : A ∈ registry := by rw [hreg]; simp
  have hB : B ∈ registry := by rw [hreg]; simp
  have huids : uids registry = uids p ++ A.uid :: (uids m ++ B.uid :: uids s) := by
    rw [hreg]; simp [uids]
  have hu2 : (uids p ++ A.uid :: (uids m ++ B.uid :: uids s)).Nodup := by
    rw [← huids]; exact hu
  obtain ⟨hnp, hncons, hdisjp⟩ := List.nodup_append.mp hu2
  obtain ⟨hAnotin, hnrest⟩ := List.nodup_cons.mp hncons
  obtain ⟨hnm, hnBs, hdisjm⟩ := List.nodup_append.mp hnrest
  have hAB : A.uid ≠ B.uid := by
    intro he
    exact hAnotin (by rw [he]; exact List.mem_append_right _ (by simp))
  have hAp : A.uid ∉ uids p := fun hm2 => hdisjp hm2 (by simp)
  have hBp : B.uid ∉ uids p := fun hm2 => hdisjp hm2 (by simp)
  have hBm : B.uid ∉ uids m := fun hm2 => hdisjm hm2 (by simp)
  have hAD : A.uid ∉ disabledUids registry (some f) := by
    intro hd
    rw [mem_disabled_iff hu hA, hfA] at hd
    cases hd
  have hBD : B.uid ∉ disabledUids registry (some f) := by
    intro hd
    rw [mem_disabled_iff hu hB, hfB] at hd
    cases hd
  unfold Graph at hok
  cases hrun : graphLoop (registry.length + 1) registry registry
      (disabledUids registry (some f)) [] with
  | error e => rw [hrun] at hok; simp at hok
  | ok pq =>
    obtain ⟨h', o'⟩ := pq
    rw [hrun] at hok
    simp at hok
    subst hok
    nth_rewrite 3 [hreg] at hrun
    obtain ⟨l₁, l₂, l₃, hdec⟩ := graphLoop_reaches_AB hu (registry.length + 1)
      hA hB hnA hnB hAB p (m ++ B :: s) (disabledUids registry (some f)) [] h' o'
      (fun x hx => by rw [hreg]; exact hx)
      (Inv.initial registry _) hAp hAD hBp hBD ⟨m, s, rfl, hBm⟩ hrun
    refine ⟨l₁, l₂, l₃, ?_⟩
    simpa using hdec

/-- Witness for the amended C4 at a registry with no dependencies at all:
the output keeps the registration order. -/
theorem graph_stability_unpulled_witness :
    ∃ l₁ l₂ l₃, [(⟨0, "a", "a", []⟩ : Registration), ⟨1, "b", "b", []⟩] =
      l₁ ++ (⟨0, "a", "a", []⟩ : Registration) :: (l₂ ++ ⟨1, "b", "b", []⟩ :: l₃) := by
  have hok : Graph [(⟨0, "a", "a", []⟩ : Registration), ⟨1, "b", "b", []⟩]
      (some (fun _ => false)) = .ok [⟨0, "a", "a", []⟩, ⟨1, "b", "b", []⟩] := by decide
  have hreg : [(⟨0, "a", "a", []⟩ : Registration), ⟨1, "b", "b", []⟩] =
      [] ++ (⟨0, "a", "a", []⟩ : Registration) :: ([] ++ ⟨1, "b", "b", []⟩ :: []) := rfl
  refine graph_stability_unpulled (by decide) hreg rfl rfl ?_ ?_ hok
  · intro X hX
    simp only [List.mem_cons, List.not_mem_nil, or_false] at hX
    rcases hX with rfl | rfl
    · exact not_reaches_of_no_step (no_edge_of_no_requires rfl) _
    · exact not_reaches_of_no_step (no_edge_of_no_requires rfl) _
  · intro X hX
    simp only [List.mem_cons, List.not_mem_nil, or_false] at hX
    rcases hX with rfl | rfl
    · exact not_reaches_of_no_step (no_edge_of_no_requires rfl) _
    · exact not_reaches_of_no_step (no_edge_of_no_requires rfl) _

end PluginSpec
